import Mathlib

/-!
# Verification of the parallel top-K photo-ranking kernel

A shallow embedding of the ranking kernel of the `ai-image-finder`
repository (Go), together with proofs about it.

Modelling conventions:
* Go strings are Lean `String`s; Go byte-lexicographic string comparison
  agrees with codepoint-lexicographic comparison on valid UTF-8, so the
  `String` linear order is a faithful model.
* Go `int` is `Int`; Go machine floats are idealized as exact `ℚ` for the
  additive raw score (all summands are multiples of 1/2, which float32
  addition represents exactly at these magnitudes) and as `ℝ` where the
  natural logarithm is involved.
* The regex `\pL+` (maximal runs of letters) is modelled over ASCII
  letters (`Char.isAlpha`); `strings.ToLower` is the character-wise
  lowercasing map.
* The Porter stemmer and the synonym table are external inputs of the
  tokenizer (a vendored library and two embedded JSON dictionaries, both
  outside the kernel sources); the tokenizer and scorer take them as
  parameters, and concrete instances are provided separately.
* Wall-clock durations are idealized: the clock is instantaneous, so
  `time.Since` of the start instant is `0`.
-/

namespace ImageFinder

/-- The ranking input record (`meta.PhotoMetadata`).  Only the fields the
ranking core consumes are modelled; the remaining metadata fields
(coordinates, photographer, camera, timestamps) are never read by the
kernel. -/
structure PhotoMetadata where
  photoID : String
  photoDescription : String
  aiDescription : String
  photoLocationCountry : String
  photoLocationCity : String
  statsDownloads : Int
deriving DecidableEq, Repr

/-- The stopword list of `internal/textmatch/tokenize.go` (`stopwords`),
transcribed key for key. -/
def stopwordList : List String :=
  ["a", "an", "the", "is", "are", "was", "were",
   "of", "in", "on", "at", "for", "to", "by", "with",
   "picture", "photo", "image", "photograph", "view",
   "camera", "lens", "shot", "taken", "exposure",
   "and", "but", "or", "as", "if", "it", "its",
   "this", "that", "these", "those", "my", "your",
   "he", "she", "him", "her", "they", "them",
   "i", "you", "me", "us", "we",
   "be", "have", "do", "say", "get", "make", "go",
   "know", "take", "see", "come", "think", "look",
   "want", "give", "use", "find", "tell", "ask",
   "work", "seem", "feel", "try", "leave", "call"]

/-- The letter class of the word regex `\pL+`, modelled over ASCII
letters. -/
def isLetter (c : Char) : Bool := c.isAlpha

/-- Character-wise lowercasing, the model of `strings.ToLower`. -/
def lowerStr (s : String) : String := ⟨s.data.map Char.toLower⟩

/-- Scanner for maximal letter runs: `splitRunsAux cs acc` processes the
remaining characters `cs` with the (reversed) current run `acc`.  A
non-letter character closes the current run; letters extend it. -/
def splitRunsAux : List Char → List Char → List (List Char)
  | [], acc => if acc.isEmpty then [] else [acc.reverse]
  | c :: cs, acc =>
      if isLetter c then splitRunsAux cs (c :: acc)
      else if acc.isEmpty then splitRunsAux cs []
      else acc.reverse :: splitRunsAux cs []

/-- The maximal runs of letters in a character list: the model of
`wordRegex.FindAllString` for the regex `\pL+`. -/
def letterRunsL (cs : List Char) : List (List Char) := splitRunsAux cs []

/-- A surface word survives the tokenizer's filter iff it is not a
stopword and has length greater than one
(`!stopwords[word] && len(word) > 1`). -/
def keepWord (w : String) : Prop := w ∉ stopwordList ∧ 1 < w.length

instance (w : String) : Decidable (keepWord w) := by
  unfold keepWord; infer_instance

/-- The core tokenizer `getStemmedTokensSet` of
`internal/textmatch/tokenize.go`: lowercase, split into maximal letter
runs, drop stopwords and one-letter words, stem, and (optionally) also
stem each synonym that itself passes the filter.  `stem` models the
vendored `porterstemmer.StemString`; `synMap` models the process-wide
`loadedSynonymMap`. -/
def getStemmedTokensSet (stem : String → String) (synMap : String → List String)
    (s : String) (expandSynonyms : Bool) : Finset String :=
  if s = "" then ∅ else
  (letterRunsL (lowerStr s).data).foldl (fun setT w =>
    let word : String := ⟨w⟩
    if keepWord word then
      let withWord := insert (stem word) setT
      if expandSynonyms then
        (synMap word).foldl (fun acc syn =>
          if keepWord syn then insert (stem syn) acc else acc) withWord
      else withWord
    else setT) ∅

/-- The public `Tokens` function (synonym expansion on), as the set of
tokens it returns; the Go function materializes this set as a slice in
nondeterministic map-iteration order. -/
def tokensSet (stem : String → String) (synMap : String → List String)
    (s : String) : Finset String :=
  getStemmedTokensSet stem synMap s true

/-- Space-joining of a word list on the character level. -/
def joinSpaceL : List (List Char) → List Char
  | [] => []
  | [w] => w
  | w :: ws => w ++ ' ' :: joinSpaceL ws

/-- Space-joining of a list of words (`strings.Join(words, " ")`). -/
def joinSpace (ws : List String) : String := ⟨joinSpaceL (ws.map String.data)⟩

/-! ## The Porter stemmer

Modelled from the spec: the tokenizer applies "the Porter stemming
algorithm" through the vendored `go-porterstemmer` library, whose source
is not part of this repository.  The definitions below transcribe
Porter's published algorithm (the five suffix-stripping steps over the
measure `m`, with the customary guard that leaves words of length at most
two unchanged). -/

/-- The five unconditional vowels. -/
def isVowelChar (c : Char) : Bool :=
  c = 'a' || c = 'e' || c = 'i' || c = 'o' || c = 'u'

/-- Consonant test at an index, with Porter's rule for `y`: `y` is a
consonant exactly when it is at the start or preceded by a vowel. -/
def isConsAt (w : List Char) : Nat → Bool
  | 0 =>
      let c := w.getD 0 'a'
      if isVowelChar c then false else true
  | i + 1 =>
      let c := w.getD (i + 1) 'a'
      if isVowelChar c then false
      else if c = 'y' then !isConsAt w i
      else true

/-- Porter's measure `m`: writing the word as `[C](VC)^m[V]`, `m` counts
the vowel-to-consonant transitions. -/
def measureP (w : List Char) : Nat :=
  ((List.range w.length).filter
    (fun i => decide (0 < i) && isConsAt w i && !isConsAt w (i - 1))).length

/-- `*v*`: the word contains a vowel. -/
def hasVowelP (w : List Char) : Bool :=
  (List.range w.length).any (fun i => !isConsAt w i)

/-- `*d`: the word ends with a double consonant. -/
def endsDoubleConsP (w : List Char) : Bool :=
  decide (2 ≤ w.length) &&
    w.getD (w.length - 1) 'a' = w.getD (w.length - 2) 'a' &&
    isConsAt w (w.length - 1)

/-- `*o`: the word ends consonant-vowel-consonant where the final
consonant is not `w`, `x` or `y`. -/
def endsCVCP (w : List Char) : Bool :=
  decide (3 ≤ w.length) &&
    isConsAt w (w.length - 1) && !isConsAt w (w.length - 2) &&
    isConsAt w (w.length - 3) &&
    !(w.getD (w.length - 1) 'a' = 'w' || w.getD (w.length - 1) 'a' = 'x' ||
      w.getD (w.length - 1) 'a' = 'y')

/-- The last character of a word (words handled here are nonempty). -/
def lastCharP (w : List Char) : Char := w.getD (w.length - 1) 'a'

/-- Applies one suffix rule: if `suf` matches, strip it, and rewrite to
`st ++ rep` when the condition holds on the stem `st` (a matching suffix
with a failing condition still stops rule search, per Porter's
longest-match discipline). -/
def tryRule (w : List Char) (cond : List Char → Bool) (suf rep : List Char) :
    Option (List Char) :=
  if suf.isSuffixOf w then
    let st := w.take (w.length - suf.length)
    if cond st then some (st ++ rep) else some w
  else none

/-- Applies the first rule whose suffix matches; the rule lists below are
ordered longest suffix first. -/
def applyRules (w : List Char) :
    List ((List Char → Bool) × List Char × List Char) → List Char
  | [] => w
  | (cond, suf, rep) :: rest =>
      match tryRule w cond suf rep with
      | some w' => w'
      | none => applyRules w rest

/-- The always-true rule condition. -/
def noCond : List Char → Bool := fun _ => true

/-- Step 1a: plural endings. -/
def step1a (w : List Char) : List Char :=
  applyRules w
    [(noCond, "sses".data, "ss".data), (noCond, "ies".data, "i".data),
     (noCond, "ss".data, "ss".data), (noCond, "s".data, [])]

/-- The cleanup applied after step 1b removes `-ed` or `-ing`. -/
def step1bFix (st : List Char) : List Char :=
  if "at".data.isSuffixOf st || "bl".data.isSuffixOf st ||
      "iz".data.isSuffixOf st then st ++ "e".data
  else if endsDoubleConsP st &&
      !(lastCharP st = 'l' || lastCharP st = 's' || lastCharP st = 'z') then
    st.take (st.length - 1)
  else if decide (measureP st = 1) && endsCVCP st then st ++ "e".data
  else st

/-- Step 1b: `-eed`, `-ed`, `-ing`. -/
def step1b (w : List Char) : List Char :=
  if "eed".data.isSuffixOf w then
    let st := w.take (w.length - 3)
    if 0 < measureP st then st ++ "ee".data else w
  else if "ed".data.isSuffixOf w && hasVowelP (w.take (w.length - 2)) then
    step1bFix (w.take (w.length - 2))
  else if "ing".data.isSuffixOf w && hasVowelP (w.take (w.length - 3)) then
    step1bFix (w.take (w.length - 3))
  else w

/-- Step 1c: terminal `y` to `i` when the stem has a vowel. -/
def step1c (w : List Char) : List Char :=
  if "y".data.isSuffixOf w && hasVowelP (w.take (w.length - 1)) then
    w.take (w.length - 1) ++ "i".data
  else w

/-- The `m > 0` condition of steps 2 and 3. -/
def mPos : List Char → Bool := fun st => decide (0 < measureP st)

/-- Step 2: double suffixes, under `m > 0`. -/
def step2 (w : List Char) : List Char :=
  applyRules w
    [(mPos, "ational".data, "ate".data), (mPos, "ization".data, "ize".data),
     (mPos, "iveness".data, "ive".data), (mPos, "fulness".data, "ful".data),
     (mPos, "ousness".data, "ous".data), (mPos, "tional".data, "tion".data),
     (mPos, "biliti".data, "ble".data), (mPos, "entli".data, "ent".data),
     (mPos, "ousli".data, "ous".data), (mPos, "ation".data, "ate".data),
     (mPos, "alism".data, "al".data), (mPos, "aliti".data, "al".data),
     (mPos, "iviti".data, "ive".data), (mPos, "enci".data, "ence".data),
     (mPos, "anci".data, "ance".data), (mPos, "izer".data, "ize".data),
     (mPos, "abli".data, "able".data), (mPos, "alli".data, "al".data),
     (mPos, "ator".data, "ate".data), (mPos, "eli".data, "e".data)]

/-- Step 3: `-ic-`, `-full`, `-ness` endings, under `m > 0`. -/
def step3 (w : List Char) : List Char :=
  applyRules w
    [(mPos, "icate".data, "ic".data), (mPos, "ative".data, []),
     (mPos, "alize".data, "al".data), (mPos, "iciti".data, "ic".data),
     (mPos, "ical".data, "ic".data), (mPos, "ness".data, []),
     (mPos, "ful".data, [])]

/-- The `m > 1` condition of step 4. -/
def mGt1 : List Char → Bool := fun st => decide (1 < measureP st)

/-- Step 4: suffix removal in longer words, under `m > 1`; `-ion` also
requires the stem to end in `s` or `t`. -/
def step4 (w : List Char) : List Char :=
  applyRules w
    [(mGt1, "ement".data, []), (mGt1, "ance".data, []), (mGt1, "ence".data, []),
     (mGt1, "able".data, []), (mGt1, "ible".data, []), (mGt1, "ment".data, []),
     (mGt1, "ant".data, []), (mGt1, "ent".data, []),
     (fun st => mGt1 st && (lastCharP st = 's' || lastCharP st = 't') &&
        decide (st ≠ []), "ion".data, []),
     (mGt1, "ism".data, []), (mGt1, "ate".data, []), (mGt1, "iti".data, []),
     (mGt1, "ous".data, []), (mGt1, "ive".data, []), (mGt1, "ize".data, []),
     (mGt1, "al".data, []), (mGt1, "er".data, []), (mGt1, "ic".data, []),
     (mGt1, "ou".data, [])]

/-- Step 5a: drop a terminal `e` when `m > 1`, or when `m = 1` and the
stem does not end consonant-vowel-consonant. -/
def step5a (w : List Char) : List Char :=
  if "e".data.isSuffixOf w then
    let st := w.take (w.length - 1)
    if 1 < measureP st then st
    else if measureP st = 1 && !endsCVCP st then st
    else w
  else w

/-- Step 5b: reduce a terminal double `l` when `m > 1`. -/
def step5b (w : List Char) : List Char :=
  if decide (1 < measureP w) && endsDoubleConsP w && lastCharP w = 'l' then
    w.take (w.length - 1)
  else w

/-- The full Porter stemmer on a character list; words of length at most
two are left unchanged (the guard of `go-porterstemmer`). -/
def porterStemList (w : List Char) : List Char :=
  if w.length ≤ 2 then w
  else step5b (step5a (step4 (step3 (step2 (step1c (step1b (step1a w)))))))

/-- `porterstemmer.StemString`: lowercase, then stem. -/
def porterStem (s : String) : String :=
  ⟨porterStemList (s.data.map Char.toLower)⟩

/-- Modelled from the spec: the synonym table merged from the two
embedded dictionaries `data/synonym_map.json` and
`data/glove_neighbors_15k.json`, whose contents are not part of the
kernel sources.  Instantiated with the associations named in the spec's
scenario S2 (`large` for `big`, `automobile` for `car`). -/
def specSynMap : String → List String := fun w =>
  if w = "big" then ["large"]
  else if w = "car" then ["automobile"]
  else []

/-! ## Tokenizer lemmas -/

/-- Every run emitted by the scanner is nonempty and consists of letters
only (assuming the pending accumulator does). -/
theorem splitRunsAux_runs {cs acc : List Char} (hacc : ∀ c ∈ acc, isLetter c)
    {w : List Char} (hw : w ∈ splitRunsAux cs acc) :
    w ≠ [] ∧ ∀ c ∈ w, isLetter c := by
  induction cs generalizing acc with
  | nil =>
    rw [splitRunsAux] at hw
    by_cases h : acc.isEmpty
    · rw [if_pos h] at hw
      cases hw
    · rw [if_neg h] at hw
      rcases List.mem_singleton.mp hw with rfl
      refine ⟨fun hrev => ?_, fun c hc => hacc c (List.mem_reverse.mp hc)⟩
      rw [List.isEmpty_iff] at h
      exact h (by simpa using congrArg List.reverse hrev)
  | cons c cs ih =>
    rw [splitRunsAux] at hw
    by_cases hc : isLetter c
    · rw [if_pos hc] at hw
      refine ih (fun d hd => ?_) hw
      rcases List.mem_cons.mp hd with rfl | h
      · exact hc
      · exact hacc d h
    · rw [if_neg hc] at hw
      by_cases he : acc.isEmpty
      · rw [if_pos he] at hw
        exact ih (fun d hd => absurd hd (List.not_mem_nil d)) hw
      · rw [if_neg he] at hw
        rcases List.mem_cons.mp hw with rfl | hw
        · refine ⟨fun hrev => ?_, fun d hd => hacc d (List.mem_reverse.mp hd)⟩
          rw [List.isEmpty_iff] at he
          exact he (by simpa using congrArg List.reverse hrev)
        · exact ih (fun d hd => absurd hd (List.not_mem_nil d)) hw

/-- Specialization of `splitRunsAux_runs` to `letterRunsL`. -/
theorem letterRunsL_runs {cs : List Char} {w : List Char}
    (hw : w ∈ letterRunsL cs) : w ≠ [] ∧ ∀ c ∈ w, isLetter c :=
  splitRunsAux_runs (by intro c hc; cases hc) hw

/-- Membership in the synonym sub-fold of the tokenizer. -/
theorem mem_synFold (stem : String → String) (syns : List String)
    (acc : Finset String) (t : String) :
    (t ∈ syns.foldl (fun a syn =>
        if keepWord syn then insert (stem syn) a else a) acc) ↔
      t ∈ acc ∨ ∃ y ∈ syns, keepWord y ∧ t = stem y := by
  induction syns generalizing acc with
  | nil => simp
  | cons y ys ih =>
    simp only [List.foldl_cons, ih, List.mem_cons]
    by_cases hy : keepWord y
    · simp only [if_pos hy, Finset.mem_insert]
      constructor
      · rintro ((h | h) | ⟨z, hz, hkz, ht⟩)
        · exact Or.inr ⟨y, Or.inl rfl, hy, h⟩
        · exact Or.inl h
        · exact Or.inr ⟨z, Or.inr hz, hkz, ht⟩
      · rintro (h | ⟨z, (rfl | hz), hkz, ht⟩)
        · exact Or.inl (Or.inr h)
        · exact Or.inl (Or.inl ht)
        · exact Or.inr ⟨z, hz, hkz, ht⟩
    · simp only [if_neg hy]
      constructor
      · rintro (h | ⟨z, hz, hkz, ht⟩)
        · exact Or.inl h
        · exact Or.inr ⟨z, Or.inr hz, hkz, ht⟩
      · rintro (h | ⟨z, (rfl | hz), hkz, ht⟩)
        · exact Or.inl h
        · exact absurd hkz hy
        · exact Or.inr ⟨z, hz, hkz, ht⟩

/-- Membership in the tokenizer's main fold over the letter runs. -/
theorem mem_runFold (stem : String → String) (synMap : String → List String)
    (expand : Bool) (runs : List (List Char)) (acc : Finset String) (t : String) :
    (t ∈ runs.foldl (fun setT w =>
        let word : String := ⟨w⟩
        if keepWord word then
          let withWord := insert (stem word) setT
          if expand then
            (synMap word).foldl (fun a syn =>
              if keepWord syn then insert (stem syn) a else a) withWord
          else withWord
        else setT) acc) ↔
      t ∈ acc ∨ ∃ w ∈ runs, keepWord ⟨w⟩ ∧
        (t = stem ⟨w⟩ ∨ (expand = true ∧ ∃ y ∈ synMap ⟨w⟩, keepWord y ∧ t = stem y)) := by
  induction runs generalizing acc with
  | nil => simp
  | cons w ws ih =>
    simp only [List.foldl_cons, ih, List.mem_cons]
    by_cases hw : keepWord ⟨w⟩
    · cases expand with
      | false =>
        simp only [if_pos hw, Bool.false_eq_true, if_false, Finset.mem_insert,
          false_and, or_false]
        constructor
        · rintro ((h | h) | ⟨z, hz, hkz, ht⟩)
          · exact Or.inr ⟨w, Or.inl rfl, hw, h⟩
          · exact Or.inl h
          · exact Or.inr ⟨z, Or.inr hz, hkz, ht⟩
        · rintro (h | ⟨z, (rfl | hz), hkz, ht⟩)
          · exact Or.inl (Or.inr h)
          · exact Or.inl (Or.inl ht)
          · exact Or.inr ⟨z, hz, hkz, ht⟩
      | true =>
        simp only [if_pos hw, if_true, mem_synFold, Finset.mem_insert, true_and]
        constructor
        · rintro (((h | h) | hsyn) | ⟨z, hz, hkz, ht⟩)
          · exact Or.inr ⟨w, Or.inl rfl, hw, Or.inl h⟩
          · exact Or.inl h
          · exact Or.inr ⟨w, Or.inl rfl, hw, Or.inr hsyn⟩
          · exact Or.inr ⟨z, Or.inr hz, hkz, ht⟩
        · rintro (h | ⟨z, (rfl | hz), hkz, ht⟩)
          · exact Or.inl (Or.inl (Or.inr h))
          · rcases ht with h | h
            · exact Or.inl (Or.inl (Or.inl h))
            · exact Or.inl (Or.inr h)
          · exact Or.inr ⟨z, hz, hkz, ht⟩
    · simp only [if_neg hw]
      constructor
      · rintro (h | ⟨z, hz, hkz, ht⟩)
        · exact Or.inl h
        · exact Or.inr ⟨z, Or.inr hz, hkz, ht⟩
      · rintro (h | ⟨z, (rfl | hz), hkz, ht⟩)
        · exact Or.inl h
        · exact absurd hkz hw
        · exact Or.inr ⟨z, hz, hkz, ht⟩

/-- Membership characterization of the tokenizer: a token is the stem of
a surviving surface word, or (under expansion) the stem of a surviving
synonym of a surviving surface word. -/
theorem mem_getStemmedTokensSet (stem : String → String)
    (synMap : String → List String) (s : String) (expand : Bool) (t : String) :
    t ∈ getStemmedTokensSet stem synMap s expand ↔
      ∃ w ∈ letterRunsL (lowerStr s).data, keepWord ⟨w⟩ ∧
        (t = stem ⟨w⟩ ∨ (expand = true ∧ ∃ y ∈ synMap ⟨w⟩, keepWord y ∧ t = stem y)) := by
  unfold getStemmedTokensSet
  by_cases hs : s = ""
  · subst hs
    simp only [if_pos rfl]
    have : letterRunsL (lowerStr "").data = [] := rfl
    simp [this]
  · simp only [if_neg hs, mem_runFold]
    simp

/-- The token set without expansion is contained in the one with
expansion (expansion only adds synonym stems). -/
theorem getStemmedTokensSet_false_subset_true (stem : String → String)
    (synMap : String → List String) (s : String) :
    getStemmedTokensSet stem synMap s false ⊆ getStemmedTokensSet stem synMap s true := by
  intro t ht
  rw [mem_getStemmedTokensSet] at ht ⊢
  rcases ht with ⟨w, hwmem, hkeep, ht | ⟨h, _⟩⟩
  · exact ⟨w, hwmem, hkeep, Or.inl ht⟩
  · cases h

/-! ## The scorer -/

/-- The text scored for a photo (`Score`'s `strings.Builder`): the
non-empty fields among description, AI description, country and city,
each followed by a space, in that order. -/
def photoText (p : PhotoMetadata) : String :=
  (if p.photoDescription ≠ "" then p.photoDescription ++ " " else "") ++
  (if p.aiDescription ≠ "" then p.aiDescription ++ " " else "") ++
  (if p.photoLocationCountry ≠ "" then p.photoLocationCountry ++ " " else "") ++
  (if p.photoLocationCity ≠ "" then p.photoLocationCity ++ " " else "")

/-- `originalQueryTokenSet`: stemmed original query words, no synonyms. -/
def queryOrigSet (stem : String → String) (synMap : String → List String)
    (q : String) : Finset String :=
  getStemmedTokensSet stem synMap q false

/-- `allQueryTokensSet`: stemmed query words plus their stemmed synonyms. -/
def queryAllSet (stem : String → String) (synMap : String → List String)
    (q : String) : Finset String :=
  getStemmedTokensSet stem synMap q true

/-- `photoOriginalsSet`: stemmed tokens of the photo text, no synonyms. -/
def photoOrigSet (stem : String → String) (synMap : String → List String)
    (p : PhotoMetadata) : Finset String :=
  getStemmedTokensSet stem synMap (photoText p) false

/-- The raw score accumulated over the (unique) photo tokens: 10 for a
photo token that is an original query token
(`originalWordMatchBonus`), 1.5 for one that only appears among the
synonym-expanded query tokens (`synonymMatchBonus`), 0 otherwise.
float32 addition of these summands is exact, so the accumulation is
modelled as an exact rational sum (commutativity absorbs Go's
nondeterministic map-iteration order). -/
def rawScore (stem : String → String) (synMap : String → List String)
    (q : String) (p : PhotoMetadata) : ℚ :=
  (photoOrigSet stem synMap p).sum (fun t =>
    if t ∈ queryOrigSet stem synMap q then (10 : ℚ)
    else if t ∈ queryAllSet stem synMap q then 3 / 2
    else 0)

open Classical in
/-- `textmatch.Score`, with float arithmetic idealized over the reals:
empty photo-token guard, zero-raw-score guard, then normalization by the
factor `ln(1 + n)` unless that factor is at most `1e-6`, in which case
the raw score is returned as a fallback. -/
noncomputable def ScoreR (stem : String → String)
    (synMap : String → List String) (q : String) (p : PhotoMetadata) : ℝ :=
  if (photoOrigSet stem synMap p).card = 0 then 0
  else if rawScore stem synMap q p = 0 then 0
  else if Real.log (1 + ((photoOrigSet stem synMap p).card : ℝ)) ≤ 1 / 1000000
    then (rawScore stem synMap q p : ℝ)
  else (rawScore stem synMap q p : ℝ) /
    Real.log (1 + ((photoOrigSet stem synMap p).card : ℝ))

/-- The raw score vanishes exactly when no photo token matches any
(expanded) query token. -/
theorem rawScore_eq_zero_iff (stem : String → String)
    (synMap : String → List String) (q : String) (p : PhotoMetadata) :
    rawScore stem synMap q p = 0 ↔
      photoOrigSet stem synMap p ∩ queryAllSet stem synMap q = ∅ := by
  unfold rawScore
  rw [Finset.sum_eq_zero_iff_of_nonneg]
  · constructor
    · intro h
      rw [Finset.eq_empty_iff_forall_not_mem]
      rintro t htmem
      rw [Finset.mem_inter] at htmem
      have := h t htmem.1
      by_cases ho : t ∈ queryOrigSet stem synMap q
      · rw [if_pos ho] at this; norm_num at this
      · rw [if_neg ho, if_pos htmem.2] at this; norm_num at this
    · intro h t htmem
      have hna : t ∉ queryAllSet stem synMap q := by
        intro hta
        have : t ∈ photoOrigSet stem synMap p ∩ queryAllSet stem synMap q :=
          Finset.mem_inter.mpr ⟨htmem, hta⟩
        rw [h] at this
        cases this
      have hno : t ∉ queryOrigSet stem synMap q := fun hto =>
        hna (getStemmedTokensSet_false_subset_true stem synMap q hto)
      rw [if_neg hno, if_neg hna]
  · intro t _
    by_cases ho : t ∈ queryOrigSet stem synMap q
    · rw [if_pos ho]; norm_num
    · rw [if_neg ho]
      by_cases ha : t ∈ queryAllSet stem synMap q
      · rw [if_pos ha]; norm_num
      · rw [if_neg ha]

/-- When the photo has at least one token, the normalization factor is
at least `ln 2`, which is far above the `1e-6` fallback threshold. -/
theorem normalizationFactor_large (n : ℕ) (hn : 1 ≤ n) :
    (1 / 1000000 : ℝ) < Real.log (1 + (n : ℝ)) := by
  have h2 : Real.log 2 ≤ Real.log (1 + (n : ℝ)) := by
    apply Real.log_le_log (by norm_num)
    have : (1 : ℝ) ≤ (n : ℝ) := by exact_mod_cast hn
    linarith
  have := Real.log_two_gt_d9
  linarith

open Classical in
/-- Claim C2: for every query `Q` and photo `P`, `Score(Q, P)` is `0`
when the tokenized photo text (photo description, AI description,
country, city, concatenated in that order) yields an empty token set or
no photo token matches; otherwise it is `raw / ln(1 + n)`, where `n` is
the number of unique stemmed photo tokens and `raw` sums 10.0 for photo
tokens that are original query tokens, 1.5 for those only in the
expanded query token set, and 0 otherwise. -/
theorem C2_score_formula (stem : String → String)
    (synMap : String → List String) (q : String) (p : PhotoMetadata) :
    ScoreR stem synMap q p =
      if photoOrigSet stem synMap p = ∅ ∨
          photoOrigSet stem synMap p ∩ queryAllSet stem synMap q = ∅ then 0
      else ((photoOrigSet stem synMap p).sum (fun t =>
              if t ∈ queryOrigSet stem synMap q then (10 : ℝ)
              else if t ∈ queryAllSet stem synMap q then 3 / 2 else 0)) /
            Real.log (1 + ((photoOrigSet stem synMap p).card : ℝ)) := by
  have hsum : ((rawScore stem synMap q p : ℚ) : ℝ) =
      (photoOrigSet stem synMap p).sum (fun t =>
        if t ∈ queryOrigSet stem synMap q then (10 : ℝ)
        else if t ∈ queryAllSet stem synMap q then 3 / 2 else 0) := by
    unfold rawScore
    push_cast
    apply Finset.sum_congr rfl
    intro t _
    by_cases ho : t ∈ queryOrigSet stem synMap q
    · rw [if_pos ho, if_pos ho]; norm_num
    · rw [if_neg ho, if_neg ho]
      by_cases ha : t ∈ queryAllSet stem synMap q
      · rw [if_pos ha, if_pos ha]; norm_num
      · rw [if_neg ha, if_neg ha]; norm_num
  unfold ScoreR
  by_cases hcard : (photoOrigSet stem synMap p).card = 0
  · rw [if_pos hcard, if_pos (Or.inl (Finset.card_eq_zero.mp hcard))]
  · by_cases hraw : rawScore stem synMap q p = 0
    · rw [if_neg hcard, if_pos hraw,
        if_pos (Or.inr ((rawScore_eq_zero_iff stem synMap q p).mp hraw))]
    · have hne : photoOrigSet stem synMap p ≠ ∅ := fun h =>
        hcard (by rw [h]; exact Finset.card_empty)
      have hint : photoOrigSet stem synMap p ∩ queryAllSet stem synMap q ≠ ∅ :=
        fun h => hraw ((rawScore_eq_zero_iff stem synMap q p).mpr h)
      have hbig := normalizationFactor_large (photoOrigSet stem synMap p).card
        (Nat.one_le_iff_ne_zero.mpr hcard)
      rw [if_neg hcard, if_neg hraw, if_neg (not_le.mpr hbig),
        if_neg (show ¬(photoOrigSet stem synMap p = ∅ ∨
          photoOrigSet stem synMap p ∩ queryAllSet stem synMap q = ∅) from by
            push_neg; exact ⟨hne, hint⟩)]
      rw [hsum]

/-- Claim C10: whenever the raw score is nonzero the photo token set is
nonempty, the normalization factor `ln(1 + n)` strictly exceeds the
`1e-6` guard (so the unnormalized fallback branch of `Score` is
unreachable), and `Score` returns the normalized value. -/
theorem C10_fallback_unreachable (stem : String → String)
    (synMap : String → List String) (q : String) (p : PhotoMetadata)
    (h : rawScore stem synMap q p ≠ 0) :
    photoOrigSet stem synMap p ≠ ∅ ∧
    (1 / 1000000 : ℝ) <
      Real.log (1 + ((photoOrigSet stem synMap p).card : ℝ)) ∧
    ScoreR stem synMap q p =
      (rawScore stem synMap q p : ℝ) /
        Real.log (1 + ((photoOrigSet stem synMap p).card : ℝ)) := by
  have hne : photoOrigSet stem synMap p ≠ ∅ := by
    intro hempty
    apply h
    unfold rawScore
    rw [hempty]
    rfl
  have hcard : (photoOrigSet stem synMap p).card ≠ 0 := fun hc =>
    hne (Finset.card_eq_zero.mp hc)
  have hbig := normalizationFactor_large (photoOrigSet stem synMap p).card
    (Nat.one_le_iff_ne_zero.mpr hcard)
  refine ⟨hne, hbig, ?_⟩
  unfold ScoreR
  rw [if_neg hcard, if_neg h, if_neg (not_le.mpr hbig)]

/-- A one-word photo used as a concrete witness input. -/
def oxPhoto : PhotoMetadata :=
  { photoID := "X", photoDescription := "ox", aiDescription := "",
    photoLocationCountry := "", photoLocationCity := "", statsDownloads := 0 }

/-- Witness for C10 at the query `"ox"` and the photo described `"ox"`:
the raw score is nonzero (it is 10) and the conclusion holds there. -/
theorem C10_fallback_unreachable_witness :
    rawScore porterStem specSynMap "ox" oxPhoto ≠ 0 ∧
    (photoOrigSet porterStem specSynMap oxPhoto ≠ ∅ ∧
      (1 / 1000000 : ℝ) <
        Real.log (1 + ((photoOrigSet porterStem specSynMap oxPhoto).card : ℝ)) ∧
      ScoreR porterStem specSynMap "ox" oxPhoto =
        (rawScore porterStem specSynMap "ox" oxPhoto : ℝ) /
          Real.log (1 + ((photoOrigSet porterStem specSynMap oxPhoto).card : ℝ))) :=
  have hraw : rawScore porterStem specSynMap "ox" oxPhoto ≠ 0 := by
    rw [Ne, rawScore_eq_zero_iff]; decide
  ⟨hraw, C10_fallback_unreachable porterStem specSynMap "ox" oxPhoto hraw⟩

/-! ## Re-tokenization of joined token lists -/

/-- A letter prefix is absorbed into the scanner's accumulator. -/
theorem splitRunsAux_letters {w : List Char} (hw : ∀ c ∈ w, isLetter c)
    (cs acc : List Char) :
    splitRunsAux (w ++ cs) acc = splitRunsAux cs (w.reverse ++ acc) := by
  induction w generalizing acc with
  | nil => simp
  | cons c w ih =>
    have hc : isLetter c := hw c (List.mem_cons_self c w)
    have hw' : ∀ d ∈ w, isLetter d := fun d hd => hw d (List.mem_cons_of_mem c hd)
    rw [List.cons_append, splitRunsAux]
    rw [if_pos hc, ih hw']
    simp

/-- Splitting the space-join of nonempty all-letter words recovers
exactly those words. -/
theorem letterRunsL_joinSpace {ws : List (List Char)}
    (h : ∀ w ∈ ws, w ≠ [] ∧ ∀ c ∈ w, isLetter c) :
    letterRunsL (joinSpaceL ws) = ws := by
  induction ws with
  | nil => rfl
  | cons w ws ih =>
    have hw := h w (List.mem_cons_self w ws)
    have hrev : ¬ w.reverse.isEmpty := by
      rw [List.isEmpty_iff, List.reverse_eq_nil_iff]
      exact hw.1
    cases ws with
    | nil =>
      show letterRunsL (joinSpaceL [w]) = [w]
      unfold joinSpaceL letterRunsL
      have habs := splitRunsAux_letters hw.2 [] []
      rw [List.append_nil, List.append_nil] at habs
      rw [habs, splitRunsAux, if_neg hrev, List.reverse_reverse]
    | cons w' ws' =>
      have hrest : ∀ v ∈ w' :: ws', v ≠ [] ∧ ∀ c ∈ v, isLetter c :=
        fun v hv => h v (List.mem_cons_of_mem w hv)
      show letterRunsL (w ++ ' ' :: joinSpaceL (w' :: ws')) = w :: w' :: ws'
      unfold letterRunsL
      rw [splitRunsAux_letters hw.2 (' ' :: joinSpaceL (w' :: ws')) []]
      rw [splitRunsAux]
      have hsp : ¬ isLetter ' ' := by decide
      rw [if_neg hsp]
      simp only [List.append_nil] at hrev ⊢
      rw [if_neg hrev, List.reverse_reverse]
      exact congrArg (w :: ·) (ih hrest)

/-- Every character of a space-join is a space or a character of one of
the joined words. -/
theorem mem_joinSpaceL {ws : List (List Char)} {c : Char}
    (hc : c ∈ joinSpaceL ws) : c = ' ' ∨ ∃ w ∈ ws, c ∈ w := by
  induction ws with
  | nil => cases hc
  | cons w ws ih =>
    cases ws with
    | nil =>
      exact Or.inr ⟨w, List.mem_cons_self w [], hc⟩
    | cons w' ws' =>
      rw [show joinSpaceL (w :: w' :: ws') = w ++ ' ' :: joinSpaceL (w' :: ws')
        from rfl] at hc
      rcases List.mem_append.mp hc with h | h
      · exact Or.inr ⟨w, List.mem_cons_self w _, h⟩
      · rcases List.mem_cons.mp h with rfl | h
        · exact Or.inl rfl
        · rcases ih h with h | ⟨v, hv, hcv⟩
          · exact Or.inl h
          · exact Or.inr ⟨v, List.mem_cons_of_mem w hv, hcv⟩

/-- Claim C6: every token produced by the tokenizer traces to a maximal
letter run of the lowercased input that is neither a stopword nor of
length at most one; it is either the stem of that run or (under
expansion) the stem of one of its synonyms, and synonyms pass the same
stopword/length filter before being stemmed and inserted. -/
theorem C6_tokenizer_filter (stem : String → String)
    (synMap : String → List String) (s : String) (expand : Bool) (t : String)
    (ht : t ∈ getStemmedTokensSet stem synMap s expand) :
    ∃ w ∈ letterRunsL (lowerStr s).data,
      w ≠ [] ∧ (∀ c ∈ w, isLetter c) ∧
      (⟨w⟩ : String) ∉ stopwordList ∧ 1 < (⟨w⟩ : String).length ∧
      (t = stem ⟨w⟩ ∨ (expand = true ∧
        ∃ y ∈ synMap ⟨w⟩, y ∉ stopwordList ∧ 1 < y.length ∧ t = stem y)) := by
  rw [mem_getStemmedTokensSet] at ht
  rcases ht with ⟨w, hwmem, hkeep, hrest⟩
  rcases letterRunsL_runs hwmem with ⟨hne, hlet⟩
  refine ⟨w, hwmem, hne, hlet, hkeep.1, hkeep.2, ?_⟩
  rcases hrest with h | ⟨hexp, y, hy, hky, ht⟩
  · exact Or.inl h
  · exact Or.inr ⟨hexp, y, hy, hky.1, hky.2, ht⟩

/-- Witness for C6 at the input `"Big cat!"` with synonym expansion: the
token `"big"` is in the token set, and the conclusion holds there. -/
theorem C6_tokenizer_filter_witness :
    "big" ∈ getStemmedTokensSet porterStem specSynMap "Big cat!" true ∧
    (∃ w ∈ letterRunsL (lowerStr "Big cat!").data,
      w ≠ [] ∧ (∀ c ∈ w, isLetter c) ∧
      (⟨w⟩ : String) ∉ stopwordList ∧ 1 < (⟨w⟩ : String).length ∧
      ("big" = porterStem ⟨w⟩ ∨ (true = true ∧
        ∃ y ∈ specSynMap ⟨w⟩, y ∉ stopwordList ∧ 1 < y.length ∧
          "big" = porterStem y))) :=
  ⟨by decide,
   C6_tokenizer_filter porterStem specSynMap "Big cat!" true "big" (by decide)⟩

/-- Claim C8 as stated is refuted at the input `"oed"`: its only token
is `"oed"`'s stem `"o"` (step 1b of the Porter algorithm removes `-ed`),
which is its own stem and is not a stopword, yet re-tokenizing the
space-joined token list `["o"]` (the slice `Tokens` returns) yields the
empty set, because the filter drops words of length at most one. -/
theorem C8_counterexample :
    ["o"].toFinset = tokensSet porterStem specSynMap "oed" ∧
    (∀ t ∈ tokensSet porterStem specSynMap "oed",
        porterStem t = t ∧ t ∉ stopwordList) ∧
    ¬ (tokensSet porterStem specSynMap "oed" ⊆
        tokensSet porterStem specSynMap (joinSpace ["o"])) := by
  refine ⟨by decide, by decide, fun hsub => ?_⟩
  have h1 : "o" ∈ tokensSet porterStem specSynMap "oed" := by decide
  have h2 := hsub h1
  revert h2
  decide

/-- Claim C8, amended: for any slice `enum` enumerating the token set of
`s` (the Go `Tokens` returns one in nondeterministic map order), the
superset property holds provided every token of `s` is its own stem, is
not a stopword, and additionally survives the filter on re-tokenization
(length greater than one, all characters lowercase letters). -/
theorem C8_amended_idempotence (stem : String → String)
    (synMap : String → List String) (s : String) (enum : List String)
    (henum : enum.toFinset = tokensSet stem synMap s)
    (h : ∀ t ∈ tokensSet stem synMap s, stem t = t ∧ t ∉ stopwordList ∧
        1 < t.length ∧ ∀ c ∈ t.data, isLetter c ∧ c.toLower = c) :
    tokensSet stem synMap s ⊆
      tokensSet stem synMap (joinSpace enum) := by
  intro t ht
  have hmemL : ∀ u ∈ enum, u ∈ tokensSet stem synMap s := by
    intro u hu
    rw [← henum]
    exact List.mem_toFinset.mpr hu
  -- The joined string is unchanged by lowercasing.
  have hfix : ∀ c ∈ joinSpaceL (enum.map String.data), c.toLower = c := by
    intro c hc
    rcases mem_joinSpaceL hc with rfl | ⟨w, hw, hcw⟩
    · decide
    · rcases List.mem_map.mp hw with ⟨u, hu, rfl⟩
      exact ((h u (hmemL u hu)).2.2.2 c hcw).2
  have hlower : lowerStr (joinSpace enum) = joinSpace enum := by
    show (⟨(joinSpaceL (enum.map String.data)).map Char.toLower⟩ : String) = _
    rw [List.map_congr_left hfix, List.map_id']
    rfl
  -- Re-splitting the joined string recovers the tokens as surface words.
  have hruns : letterRunsL (lowerStr (joinSpace enum)).data =
      enum.map String.data := by
    rw [hlower]
    apply letterRunsL_joinSpace
    intro w hw
    rcases List.mem_map.mp hw with ⟨u, hu, rfl⟩
    rcases h u (hmemL u hu) with ⟨_, _, hlen, hchar⟩
    constructor
    · intro hnil
      rw [show u.length = u.data.length from rfl, hnil] at hlen
      exact absurd hlen (by decide)
    · exact fun c hc => (hchar c hc).1
  -- Each original token survives re-tokenization as its own stem.
  rcases h t ht with ⟨hstem, hstop, hlen, _⟩
  have htL : t ∈ enum := by
    rw [← List.mem_toFinset, henum]
    exact ht
  rw [tokensSet, mem_getStemmedTokensSet, hruns]
  refine ⟨t.data, ?_, ?_, Or.inl ?_⟩
  · exact List.mem_map_of_mem String.data htL
  · exact ⟨hstop, hlen⟩
  · exact hstem.symm

/-- Witness for the amended C8 at the input `"big cat"` (tokens `big`,
`cat` and the synonym stem `larg`, all of which are their own stems,
non-stopwords, long enough, and lowercase letters). -/
theorem C8_amended_idempotence_witness :
    ["big", "larg", "cat"].toFinset = tokensSet porterStem specSynMap "big cat" ∧
    (∀ t ∈ tokensSet porterStem specSynMap "big cat",
        porterStem t = t ∧ t ∉ stopwordList ∧
        1 < t.length ∧ ∀ c ∈ t.data, isLetter c ∧ c.toLower = c) ∧
    tokensSet porterStem specSynMap "big cat" ⊆
      tokensSet porterStem specSynMap (joinSpace ["big", "larg", "cat"]) :=
  ⟨by decide, by decide,
   C8_amended_idempotence porterStem specSynMap "big cat" ["big", "larg", "cat"]
     (by decide) (by decide)⟩

/-! ## The top-K heap and the rankers

The four rankers call `textmatch.Score` and then only compare the
resulting `float32` values, so they are embedded generically over a
scoring function into a linearly ordered type `V`; the program
instantiates `score` with `Score(query, ·)`.  The `container/heap`
min-heap is modelled by its contract through a list kept sorted
ascending in the heap order, whose head is the root (the minimum). -/

/-- A photo together with its computed score (`scoredPhoto`). -/
structure ScoredPhoto (V : Type) where
  photo : PhotoMetadata
  score : V
deriving DecidableEq, Repr

variable {V : Type} [LinearOrder V]

/-- The heap order `photoHeap.Less`: lower score first, then fewer
downloads, then lexicographically larger photo id ("less preferred"
first).  Its negation-with-arguments-swapped is exactly the
`shouldReplace` test of the rankers. -/
def spLess (a b : ScoredPhoto V) : Prop :=
  a.score < b.score ∨ (a.score = b.score ∧
    (a.photo.statsDownloads < b.photo.statsDownloads ∨
      (a.photo.statsDownloads = b.photo.statsDownloads ∧
        b.photo.photoID < a.photo.photoID)))

instance (a b : ScoredPhoto V) : Decidable (spLess a b) := by
  unfold spLess; infer_instance

/-- The total preorder induced by the heap order: `a` is no more
preferred than ... i.e. `b` does not beat `a` from below. -/
def spLE (a b : ScoredPhoto V) : Prop := ¬ spLess b a

instance (a b : ScoredPhoto V) : Decidable (spLE a b) := by
  unfold spLE; infer_instance

/-- The ranking key; comparing keys lexicographically (with the id
dualized) is the heap order. -/
def spKey (a : ScoredPhoto V) : V ×ₗ (ℤ ×ₗ Stringᵒᵈ) :=
  toLex (a.score, toLex (a.photo.statsDownloads, OrderDual.toDual a.photo.photoID))

theorem spLess_iff_key {a b : ScoredPhoto V} : spLess a b ↔ spKey a < spKey b := by
  unfold spLess spKey
  rw [Prod.Lex.lt_iff, Prod.Lex.lt_iff]
  simp [OrderDual.toDual_lt_toDual]

theorem spLE_iff_key {a b : ScoredPhoto V} : spLE a b ↔ spKey a ≤ spKey b := by
  rw [spLE, spLess_iff_key, not_lt]

instance : IsTrans (ScoredPhoto V) spLE :=
  ⟨fun _ _ _ hab hbc => spLE_iff_key.mpr
    (le_trans (spLE_iff_key.mp hab) (spLE_iff_key.mp hbc))⟩

instance : IsTotal (ScoredPhoto V) spLE :=
  ⟨fun a b => by rw [spLE_iff_key, spLE_iff_key]; exact le_total _ _⟩

theorem spLE_of_less {a b : ScoredPhoto V} (h : spLess a b) : spLE a b :=
  spLE_iff_key.mpr (le_of_lt (spLess_iff_key.mp h))

theorem spLE_trans_less {a b c : ScoredPhoto V} (h1 : spLE a b)
    (h2 : spLess b c) : spLE a c :=
  spLE_iff_key.mpr (le_trans (spLE_iff_key.mp h1)
    (le_of_lt (spLess_iff_key.mp h2)))

theorem spLE_trans {a b c : ScoredPhoto V} (h1 : spLE a b)
    (h2 : spLE b c) : spLE a c :=
  spLE_iff_key.mpr (le_trans (spLE_iff_key.mp h1) (spLE_iff_key.mp h2))

/-- One `offer` to the bounded min-heap: push while below capacity `k`;
otherwise compare against the root (the minimum) and replace it exactly
when the candidate is strictly preferred (`shouldReplace`). -/
def offer (k : Int) (h : List (ScoredPhoto V)) (sp : ScoredPhoto V) :
    List (ScoredPhoto V) :=
  if (h.length : Int) < k then List.orderedInsert spLE sp h
  else match h with
    | [] => []
    | root :: rest =>
        if spLess root sp then List.orderedInsert spLE sp rest
        else root :: rest

/-- Pairing a photo with its score, as each scoring site does. -/
def scoredOf (score : PhotoMetadata → V) (p : PhotoMetadata) : ScoredPhoto V :=
  ⟨p, score p⟩

/-- The heap contents after offering every photo of `photos` in order. -/
def topKHeap (score : PhotoMetadata → V) (k : Int)
    (photos : List PhotoMetadata) : List (ScoredPhoto V) :=
  (photos.map (scoredOf score)).foldl (offer k) []

/-- Popping the heap empty and sorting descending (score, downloads
descending, id ascending): the reverse of the ascending heap list. -/
def drainSorted (h : List (ScoredPhoto V)) : List PhotoMetadata :=
  h.reverse.map ScoredPhoto.photo

/-- `textmatch.Rank`: the sequential ranker. -/
def Rank (score : PhotoMetadata → V) (photos : List PhotoMetadata)
    (k : Int) : List PhotoMetadata :=
  if k ≤ 0 ∨ photos = [] then []
  else drainSorted (topKHeap score k photos)

/-- `pipeline.collectResults`: the single collector of the pipeline,
reading scored photos in their (scheduling-dependent) arrival order. -/
def collectResults (score : PhotoMetadata → V) (arrival : List PhotoMetadata)
    (k : Int) : List PhotoMetadata :=
  if k ≤ 0 then []
  else drainSorted ((arrival.map (scoredOf score)).foldl (offer k) [])

/-- `pipeline.RankScoringPipeline`: degenerate-input guard, then the
collector over the arrival order of the scored candidates (`arrival` is
the order in which the scorer workers' results reach the collector; the
channels deliver each candidate exactly once, so it is a permutation of
the candidates).  The scorer count `numScorers` only affects scheduling,
never the collected result. -/
def RankScoringPipeline (score : PhotoMetadata → V)
    (photos : List PhotoMetadata) (k : Int) (_numScorers : Int)
    (arrival : List PhotoMetadata) : List PhotoMetadata :=
  if k ≤ 0 ∨ photos = [] then []
  else collectResults score arrival k

/-- `ws.RankWS`: degenerate-input guard, then the shared collector over
the order in which the workers push their scored tasks (each task is
consumed exactly once, so `arrival` is a permutation of the
candidates).  The returned duration is the idealized elapsed time `0`. -/
def RankWS (score : PhotoMetadata → V) (photos : List PhotoMetadata)
    (k : Int) (_numWorkers : Int) (arrival : List PhotoMetadata) :
    List PhotoMetadata × Nat :=
  if k ≤ 0 ∨ photos = [] then ([], 0)
  else (drainSorted ((arrival.map (scoredOf score)).foldl (offer k) []), 0)

/-- The BSP worker count: default to one worker when non-positive, and
clamp to the number of photos. -/
def bspNumWorkers (numWorkers : Int) (n : Nat) : Nat :=
  if numWorkers ≤ 0 then min 1 n else min numWorkers.toNat n

/-- The ceiling-division chunk size `(n + w - 1) / w`. -/
def bspChunkSize (n w : Nat) : Nat := (n + w - 1) / w

/-- The contiguous chunks `photos[i*cs : min((i+1)*cs, n)]` handed to the
BSP workers. -/
def bspChunks (photos : List PhotoMetadata) (cs w : Nat) :
    List (List PhotoMetadata) :=
  (List.range w).map (fun i =>
    (photos.take (min ((i + 1) * cs) photos.length)).drop (i * cs))

/-- Whether the chunk loop hits Go's slice-bounds panic: some chunk's
start index `i*cs` exceeds `len(photos)` (slicing `photos[start:end]`
with `start > len(photos)` panics). -/
def bspPanics (photos : List PhotoMetadata) (cs w : Nat) : Bool :=
  (List.range w).any (fun i => decide (photos.length < i * cs))

/-- The per-worker private heaps, each the offer-fold of its chunk. -/
def bspLocalHeaps (score : PhotoMetadata → V) (k : Int)
    (photos : List PhotoMetadata) (cs w : Nat) : List (List (ScoredPhoto V)) :=
  (bspChunks photos cs w).map
    (fun chunk => (chunk.map (scoredOf score)).foldl (offer k) [])

/-- `bsp.RankBSP`: degenerate-input guard, worker clamping, ceiling-
division chunking, per-worker local heaps, and a reduction of the local
heaps (popped minimum-first, worker order) into a final heap.  The
result is `none` when the chunk computation panics. -/
def RankBSP (score : PhotoMetadata → V) (photos : List PhotoMetadata)
    (k : Int) (numWorkers : Int) : Option (List PhotoMetadata × Nat) :=
  if k ≤ 0 ∨ photos = [] then some ([], 0)
  else if bspPanics photos
      (bspChunkSize photos.length (bspNumWorkers numWorkers photos.length))
      (bspNumWorkers numWorkers photos.length) then none
  else some (drainSorted
    ((bspLocalHeaps score k photos
        (bspChunkSize photos.length (bspNumWorkers numWorkers photos.length))
        (bspNumWorkers numWorkers photos.length)).flatten.foldl (offer k) []),
    0)

/-! ## Heap lemmas -/

/-- Equation lemma: `offer` below capacity inserts. -/
theorem offer_insert {k : Int} {h : List (ScoredPhoto V)}
    (hlt : (h.length : Int) < k) (sp : ScoredPhoto V) :
    offer k h sp = List.orderedInsert spLE sp h := by
  unfold offer; rw [if_pos hlt]

/-- Equation lemma: `offer` at capacity on an empty heap is a no-op. -/
theorem offer_full_nil {k : Int}
    (hlt : ¬ ((([] : List (ScoredPhoto V)).length : Int) < k))
    (sp : ScoredPhoto V) : offer k ([] : List (ScoredPhoto V)) sp = [] := by
  unfold offer; rw [if_neg hlt]

/-- Equation lemma: `offer` at capacity replaces the root exactly when
the candidate is strictly preferred. -/
theorem offer_full_cons {k : Int} {root : ScoredPhoto V}
    {rest : List (ScoredPhoto V)}
    (hlt : ¬ (((root :: rest).length : Int) < k)) (sp : ScoredPhoto V) :
    offer k (root :: rest) sp =
      if spLess root sp then List.orderedInsert spLE sp rest
      else root :: rest := by
  unfold offer; rw [if_neg hlt]

/-- `offer` keeps the heap list sorted ascending. -/
theorem offer_sorted {k : Int} {h : List (ScoredPhoto V)}
    (hs : h.Sorted spLE) (sp : ScoredPhoto V) : (offer k h sp).Sorted spLE := by
  by_cases hlt : (h.length : Int) < k
  · rw [offer_insert hlt]
    exact List.Sorted.orderedInsert sp h hs
  · match h, hs, hlt with
    | [], _, hlt => rw [offer_full_nil hlt]; exact List.sorted_nil
    | root :: rest, hs, hlt =>
      rw [offer_full_cons hlt]
      by_cases hrep : spLess root sp
      · rw [if_pos hrep]
        exact List.Sorted.orderedInsert sp rest (List.Sorted.of_cons hs)
      · rw [if_neg hrep]
        exact hs

/-- `offer` grows the heap by one below capacity and keeps its size
otherwise. -/
theorem offer_length (k : Int) (h : List (ScoredPhoto V)) (sp : ScoredPhoto V) :
    (offer k h sp).length =
      if (h.length : Int) < k then h.length + 1 else h.length := by
  by_cases hlt : (h.length : Int) < k
  · rw [offer_insert hlt, if_pos hlt, List.orderedInsert_length]
  · rw [if_neg hlt]
    match h, hlt with
    | [], hlt => rw [offer_full_nil hlt]
    | root :: rest, hlt =>
      rw [offer_full_cons hlt]
      by_cases hrep : spLess root sp
      · rw [if_pos hrep]
        simp [List.orderedInsert_length]
      · rw [if_neg hrep]

/-- The heap after offering a whole list has `min k` and the number of
offers as its size. -/
theorem foldl_offer_length (k : Int) :
    ∀ (l : List (ScoredPhoto V)) (h₀ : List (ScoredPhoto V)),
      h₀.length ≤ k.toNat →
      (l.foldl (offer k) h₀).length = min k.toNat (h₀.length + l.length) := by
  intro l
  induction l with
  | nil => intro h₀ hh; simpa using (Nat.min_eq_right hh).symm
  | cons sp l ih =>
    intro h₀ hh
    rw [List.foldl_cons]
    by_cases hlt : (h₀.length : Int) < k
    · have hlen : (offer k h₀ sp).length = h₀.length + 1 := by
        rw [offer_length, if_pos hlt]
      rw [ih _ (by omega), hlen]
      simp only [List.length_cons]
      omega
    · have hlen : (offer k h₀ sp).length = h₀.length := by
        rw [offer_length, if_neg hlt]
      rw [ih _ (by omega), hlen]
      simp only [List.length_cons]
      omega

/-- `offer` with an explicit ghost list of the elements discarded so
far: the popped root, or the rejected candidate, moves to the ghost
list. -/
def offerG (k : Int) (hr : List (ScoredPhoto V) × List (ScoredPhoto V))
    (sp : ScoredPhoto V) : List (ScoredPhoto V) × List (ScoredPhoto V) :=
  if (hr.1.length : Int) < k then (List.orderedInsert spLE sp hr.1, hr.2)
  else match hr.1 with
    | [] => ([], sp :: hr.2)
    | root :: rest =>
        if spLess root sp then (List.orderedInsert spLE sp rest, root :: hr.2)
        else (root :: rest, sp :: hr.2)

/-- Equation lemma: ghost offer below capacity. -/
theorem offerG_insert {k : Int} {h : List (ScoredPhoto V)}
    (rej : List (ScoredPhoto V)) (hlt : (h.length : Int) < k)
    (sp : ScoredPhoto V) :
    offerG k (h, rej) sp = (List.orderedInsert spLE sp h, rej) := by
  unfold offerG; rw [if_pos hlt]

/-- Equation lemma: ghost offer at capacity on an empty heap. -/
theorem offerG_full_nil {k : Int} (rej : List (ScoredPhoto V))
    (hlt : ¬ ((([] : List (ScoredPhoto V)).length : Int) < k))
    (sp : ScoredPhoto V) :
    offerG k (([] : List (ScoredPhoto V)), rej) sp = ([], sp :: rej) := by
  unfold offerG; rw [if_neg hlt]

/-- Equation lemma: ghost offer at capacity on a nonempty heap. -/
theorem offerG_full_cons {k : Int} {root : ScoredPhoto V}
    {rest : List (ScoredPhoto V)} (rej : List (ScoredPhoto V))
    (hlt : ¬ (((root :: rest).length : Int) < k)) (sp : ScoredPhoto V) :
    offerG k (root :: rest, rej) sp =
      if spLess root sp then (List.orderedInsert spLE sp rest, root :: rej)
      else (root :: rest, sp :: rej) := by
  unfold offerG; rw [if_neg hlt]

/-- The ghost-extended offer projects to `offer`. -/
theorem offerG_fst (k : Int) (h rej : List (ScoredPhoto V))
    (sp : ScoredPhoto V) : (offerG k (h, rej) sp).1 = offer k h sp := by
  by_cases hlt : (h.length : Int) < k
  · rw [offerG_insert rej hlt, offer_insert hlt]
  · match h, hlt with
    | [], hlt => rw [offerG_full_nil rej hlt, offer_full_nil hlt]
    | root :: rest, hlt =>
      rw [offerG_full_cons rej hlt, offer_full_cons hlt]
      by_cases hrep : spLess root sp
      · rw [if_pos hrep, if_pos hrep]
      · rw [if_neg hrep, if_neg hrep]

/-- One ghost-extended offer preserves the multiset of all elements. -/
theorem offerG_perm (k : Int) (h rej : List (ScoredPhoto V))
    (sp : ScoredPhoto V) :
    List.Perm ((offerG k (h, rej) sp).1 ++ (offerG k (h, rej) sp).2)
      (sp :: (h ++ rej)) := by
  by_cases hlt : (h.length : Int) < k
  · rw [offerG_insert rej hlt]
    exact (List.perm_orderedInsert spLE sp h).append_right rej
  · match h, hlt with
    | [], hlt =>
      rw [offerG_full_nil rej hlt]
      exact List.Perm.refl _
    | root :: rest, hlt =>
      rw [offerG_full_cons rej hlt]
      by_cases hrep : spLess root sp
      · rw [if_pos hrep]
        show List.Perm (List.orderedInsert spLE sp rest ++ root :: rej)
          (sp :: ((root :: rest) ++ rej))
        have p1 : List.Perm (List.orderedInsert spLE sp rest ++ root :: rej)
            ((sp :: rest) ++ root :: rej) :=
          (List.perm_orderedInsert spLE sp rest).append_right _
        have p2 : List.Perm ((sp :: rest) ++ root :: rej)
            (sp :: (root :: (rest ++ rej))) := (List.perm_middle).cons sp
        exact p1.trans p2
      · rw [if_neg hrep]
        show List.Perm ((root :: rest) ++ sp :: rej) (sp :: ((root :: rest) ++ rej))
        exact List.perm_middle

/-- The heap/ghost invariant: the heap is sorted ascending, elements are
only discarded while the heap is at capacity, and every discarded
element is no more preferred than every heap element. -/
def heapInv (k : Int) (h rej : List (ScoredPhoto V)) : Prop :=
  h.Sorted spLE ∧ (rej ≠ [] → ¬((h.length : Int) < k)) ∧
  ∀ x ∈ rej, ∀ q ∈ h, spLE x q

/-- One ghost-extended offer preserves the invariant. -/
theorem offerG_inv (k : Int) {h rej : List (ScoredPhoto V)}
    (inv : heapInv k h rej) (sp : ScoredPhoto V) :
    heapInv k (offerG k (h, rej) sp).1 (offerG k (h, rej) sp).2 := by
  obtain ⟨hsort, hfull, hle⟩ := inv
  by_cases hlt : (h.length : Int) < k
  · rw [offerG_insert rej hlt]
    have hrejnil : rej = [] := by
      by_contra hne
      exact hfull hne hlt
    subst hrejnil
    exact ⟨List.Sorted.orderedInsert sp h hsort, fun hne => absurd rfl hne,
      fun x hx => absurd hx (List.not_mem_nil x)⟩
  · match h, hsort, hfull, hle, hlt with
    | [], _, _, _, hlt =>
      rw [offerG_full_nil rej hlt]
      exact ⟨List.sorted_nil, fun _ => hlt,
        fun x _ q hq => absurd hq (List.not_mem_nil q)⟩
    | root :: rest, hsort, hfull, hle, hlt =>
      rw [offerG_full_cons rej hlt]
      have hroot_le : ∀ q ∈ rest, spLE root q :=
        fun q hq => List.rel_of_sorted_cons hsort q hq
      by_cases hrep : spLess root sp
      · rw [if_pos hrep]
        show heapInv k (List.orderedInsert spLE sp rest) (root :: rej)
        refine ⟨List.Sorted.orderedInsert sp rest (List.Sorted.of_cons hsort),
          fun _ => ?_, ?_⟩
        · have hil : (List.orderedInsert spLE sp rest).length = rest.length + 1 :=
            List.orderedInsert_length spLE rest sp
          simpa [hil] using hlt
        · intro x hx q hq
          rcases (List.mem_orderedInsert spLE).mp hq with rfl | hq
          · rcases List.mem_cons.mp hx with rfl | hx
            · exact spLE_of_less hrep
            · exact spLE_trans_less (hle x hx root (List.mem_cons_self root rest)) hrep
          · rcases List.mem_cons.mp hx with rfl | hx
            · exact hroot_le q hq
            · exact hle x hx q (List.mem_cons_of_mem root hq)
      · rw [if_neg hrep]
        show heapInv k (root :: rest) (sp :: rej)
        refine ⟨hsort, fun _ => hlt, ?_⟩
        intro x hx q hq
        rcases List.mem_cons.mp hx with rfl | hx
        · rcases List.mem_cons.mp hq with rfl | hq
          · exact hrep
          · exact spLE_trans hrep (hroot_le q hq)
        · exact hle x hx q hq

/-- Folding ghost-extended offers: invariant, projection, and multiset
preservation together. -/
theorem foldl_offerG_facts (k : Int) :
    ∀ (l : List (ScoredPhoto V)) (h rej : List (ScoredPhoto V)),
      heapInv k h rej →
      heapInv k (l.foldl (offerG k) (h, rej)).1 (l.foldl (offerG k) (h, rej)).2 ∧
      List.Perm ((l.foldl (offerG k) (h, rej)).1 ++ (l.foldl (offerG k) (h, rej)).2)
        ((h ++ rej) ++ l) ∧
      (l.foldl (offerG k) (h, rej)).1 = l.foldl (offer k) h := by
  intro l
  induction l with
  | nil =>
    intro h rej inv
    exact ⟨inv, by simp, rfl⟩
  | cons sp l ih =>
    intro h rej inv
    rw [List.foldl_cons, List.foldl_cons]
    have hstep := offerG_inv k inv sp
    have hperm := offerG_perm k h rej sp
    have hfst := offerG_fst k h rej sp
    obtain ⟨inv', perm', fst'⟩ :=
      ih (offerG k (h, rej) sp).1 (offerG k (h, rej) sp).2 hstep
    refine ⟨by simpa using inv', ?_, by rw [← hfst]; simpa using fst'⟩
    have p1 : List.Perm
        ((l.foldl (offerG k) (offerG k (h, rej) sp)).1 ++
          (l.foldl (offerG k) (offerG k (h, rej) sp)).2)
        (((offerG k (h, rej) sp).1 ++ (offerG k (h, rej) sp).2) ++ l) := by
      simpa using perm'
    have p2 : List.Perm (((offerG k (h, rej) sp).1 ++ (offerG k (h, rej) sp).2) ++ l)
        ((sp :: (h ++ rej)) ++ l) := hperm.append_right l
    have p3 : List.Perm ((sp :: (h ++ rej)) ++ l) ((h ++ rej) ++ (sp :: l)) :=
      List.perm_middle.symm
    exact (p1.trans p2).trans p3

/-- The summary facts about a plain offer fold from the empty heap:
sortedness, exact size, and a ghost list of discarded elements that are
all no more preferred than every retained element. -/
theorem offerFold_facts (k : Int) (l : List (ScoredPhoto V)) :
    ∃ rej : List (ScoredPhoto V),
      (l.foldl (offer k) []).Sorted spLE ∧
      (l.foldl (offer k) []).length = min k.toNat l.length ∧
      List.Perm ((l.foldl (offer k) []) ++ rej) l ∧
      (rej ≠ [] → ¬(((l.foldl (offer k) []).length : Int) < k)) ∧
      ∀ x ∈ rej, ∀ q ∈ l.foldl (offer k) [], spLE x q := by
  have inv0 : heapInv k ([] : List (ScoredPhoto V)) [] :=
    ⟨List.sorted_nil, fun hne => absurd rfl hne,
     fun x hx => absurd hx (List.not_mem_nil x)⟩
  obtain ⟨⟨hsort, hfull, hle⟩, hperm, hfst⟩ := foldl_offerG_facts k l [] [] inv0
  refine ⟨(l.foldl (offerG k) ([], [])).2, ?_, ?_, ?_, ?_, ?_⟩
  · rw [← hfst]; exact hsort
  · simpa using foldl_offer_length k l [] (by simp)
  · rw [← hfst]; simpa using hperm
  · rw [← hfst]; exact hfull
  · rw [← hfst]; exact hle

omit [LinearOrder V] in
/-- Membership in the drained output. -/
theorem mem_drainSorted {h : List (ScoredPhoto V)} {r : PhotoMetadata} :
    r ∈ drainSorted h ↔ ∃ q ∈ h, q.photo = r := by
  unfold drainSorted
  simp only [List.mem_map, List.mem_reverse]

/-- The rank order on output photos, relative to a scoring function:
`b` is no more preferred than `a`. -/
def outLE (score : PhotoMetadata → V) (a b : PhotoMetadata) : Prop :=
  spLE (scoredOf score b) (scoredOf score a)

/-- The top-K specification of a ranker result: it has `min(k, n)`
entries drawn from the candidates, and no candidate outside it is
strictly preferred over any entry. -/
def IsTopK (score : PhotoMetadata → V) (k : Int)
    (photos res : List PhotoMetadata) : Prop :=
  res.length = min k.toNat photos.length ∧
  (∀ r ∈ res, r ∈ photos) ∧
  ∀ p ∈ photos, p ∉ res → ∀ r ∈ res, spLE (scoredOf score p) (scoredOf score r)

/-- The master facts about collecting one arrival list into a top-K heap
and draining it: the result is a top-K selection of the arrivals and is
sorted in the output order. -/
theorem topKFold_master (score : PhotoMetadata → V) (k : Int)
    (arrival : List PhotoMetadata) :
    IsTopK score k arrival (drainSorted (topKHeap score k arrival)) ∧
    (drainSorted (topKHeap score k arrival)).Pairwise (outLE score) := by
  obtain ⟨rej, hsort, hlen, hperm, _, hle⟩ :=
    offerFold_facts k (arrival.map (scoredOf score))
  have hmemH : ∀ q ∈ topKHeap score k arrival,
      q = scoredOf score q.photo ∧ q.photo ∈ arrival := by
    intro q hq
    have : q ∈ arrival.map (scoredOf score) :=
      (hperm.mem_iff).mp (List.mem_append_left rej hq)
    rcases List.mem_map.mp this with ⟨p, hp, rfl⟩
    exact ⟨rfl, hp⟩
  refine ⟨⟨?_, ?_, ?_⟩, ?_⟩
  · show (drainSorted (topKHeap score k arrival)).length = _
    unfold drainSorted
    rw [List.length_map, List.length_reverse]
    show (topKHeap score k arrival).length = _
    unfold topKHeap
    rw [foldl_offer_length k _ [] (by simp)]
    simp
  · intro r hr
    rcases mem_drainSorted.mp hr with ⟨q, hq, rfl⟩
    exact (hmemH q hq).2
  · intro p hp hpr r hr
    have hpm : scoredOf score p ∈ arrival.map (scoredOf score) :=
      List.mem_map_of_mem (scoredOf score) hp
    have : scoredOf score p ∈ topKHeap score k arrival ++ rej :=
      (hperm.mem_iff).mpr hpm
    rcases List.mem_append.mp this with hH | hR
    · exact absurd (mem_drainSorted.mpr ⟨scoredOf score p, hH, rfl⟩) hpr
    · rcases mem_drainSorted.mp hr with ⟨q, hq, rfl⟩
      have := hle (scoredOf score p) hR q hq
      rwa [(hmemH q hq).1] at this
  · unfold drainSorted
    rw [List.pairwise_map]
    have hrev : (topKHeap score k arrival).reverse.Pairwise (fun a b => spLE b a) :=
      List.pairwise_reverse.mpr hsort
    refine List.Pairwise.imp_of_mem ?_ hrev
    intro a b ha hb hba
    have haH := hmemH a (List.mem_reverse.mp ha)
    have hbH := hmemH b (List.mem_reverse.mp hb)
    show spLE (scoredOf score b.photo) (scoredOf score a.photo)
    rw [← haH.1, ← hbH.1]
    exact hba

/-- `Rank` is a sorted top-K selection (degenerate inputs aside). -/
theorem IsTopK_nil (score : PhotoMetadata → V) {photos : List PhotoMetadata}
    {k : Int} (h : k ≤ 0 ∨ photos = []) : IsTopK score k photos [] := by
  refine ⟨?_, fun r hr => absurd hr (List.not_mem_nil r),
    fun p _ _ r hr => absurd hr (List.not_mem_nil r)⟩
  show 0 = min k.toNat photos.length
  rcases h with hk | hp
  · omega
  · rw [hp]; simp

theorem Rank_facts (score : PhotoMetadata → V) (photos : List PhotoMetadata)
    (k : Int) :
    IsTopK score k photos (Rank score photos k) ∧
    (Rank score photos k).Pairwise (outLE score) := by
  unfold Rank
  by_cases h : k ≤ 0 ∨ photos = []
  · rw [if_pos h]
    exact ⟨IsTopK_nil score h, List.Pairwise.nil⟩
  · rw [if_neg h]
    exact topKFold_master score k photos

/-- A top-K selection of a permuted arrival list is a top-K selection of
the original candidates. -/
theorem IsTopK_of_perm (score : PhotoMetadata → V) (k : Int)
    {arrival photos res : List PhotoMetadata}
    (hp : List.Perm arrival photos) (h : IsTopK score k arrival res) :
    IsTopK score k photos res := by
  obtain ⟨hlen, hsub, hle⟩ := h
  refine ⟨by rw [hlen, hp.length_eq], ?_, ?_⟩
  · exact fun r hr => (hp.mem_iff).mp (hsub r hr)
  · exact fun p hpmem => hle p ((hp.mem_iff).mpr hpmem)

/-! ## BSP lemmas -/

/-- Clamping each summand at `a` does not change a sum clamped at `a`. -/
theorem min_sum_min (a : Nat) (l : List Nat) :
    min a ((l.map (fun b => min a b)).sum) = min a l.sum := by
  induction l with
  | nil => rfl
  | cons b l ih =>
    simp only [List.map_cons, List.sum_cons]
    omega

/-- The concatenation of the first `m` chunks is a prefix of the list. -/
theorem take_chunks_flatten (photos : List PhotoMetadata) (cs : Nat) :
    ∀ m : Nat, (∀ i < m, i * cs ≤ photos.length) →
      ((List.range m).map (fun i =>
        (photos.take (min ((i + 1) * cs) photos.length)).drop (i * cs))).flatten =
        photos.take (min (m * cs) photos.length) := by
  intro m
  induction m with
  | zero => simp
  | succ m ih =>
    intro hcov
    rw [List.range_succ, List.map_append, List.flatten_append,
      ih (fun i hi => hcov i (Nat.lt_succ_of_lt hi))]
    have hm : m * cs ≤ photos.length := hcov m (Nat.lt_succ_self m)
    have hmin : min (m * cs) photos.length = m * cs := Nat.min_eq_left hm
    have hAB : m * cs ≤ min ((m + 1) * cs) photos.length :=
      le_min (Nat.mul_le_mul_right cs (Nat.le_succ m)) hm
    rw [hmin]
    simp only [List.map_cons, List.map_nil, List.flatten_cons, List.flatten_nil,
      List.append_nil]
    calc photos.take (m * cs) ++
          (photos.take (min ((m + 1) * cs) photos.length)).drop (m * cs)
        = (photos.take (min ((m + 1) * cs) photos.length)).take (m * cs) ++
          (photos.take (min ((m + 1) * cs) photos.length)).drop (m * cs) := by
          rw [List.take_take, Nat.min_eq_left hAB]
      _ = photos.take (min ((m + 1) * cs) photos.length) :=
          List.take_append_drop _ _

/-- With full coverage and no panic, the chunks concatenate back to the
whole candidate list. -/
theorem bspChunks_flatten (photos : List PhotoMetadata) (cs w : Nat)
    (hcov : ∀ i < w, i * cs ≤ photos.length)
    (hful : photos.length ≤ w * cs) :
    (bspChunks photos cs w).flatten = photos := by
  unfold bspChunks
  rw [take_chunks_flatten photos cs w hcov, Nat.min_eq_right hful,
    List.take_length]

/-- When `RankBSP` returns a result, it is a sorted top-K selection of
the candidates. -/
theorem RankBSP_facts (score : PhotoMetadata → V) {photos : List PhotoMetadata}
    {k W : Int} {res : List PhotoMetadata} {d : Nat}
    (h : RankBSP score photos k W = some (res, d)) :
    IsTopK score k photos res ∧ res.Pairwise (outLE score) := by
  unfold RankBSP at h
  by_cases hdeg : k ≤ 0 ∨ photos = []
  · rw [if_pos hdeg] at h
    have hres : res = [] := by
      injection h with h1
      exact (congrArg Prod.fst h1).symm
    subst hres
    have hmin : min k.toNat photos.length = 0 := by
      rcases hdeg with hk | hp
      · omega
      · rw [hp]; simp
    exact ⟨⟨by rw [hmin]; rfl, fun r hr => absurd hr (List.not_mem_nil r),
      fun p _ _ r hr => absurd hr (List.not_mem_nil r)⟩, List.Pairwise.nil⟩
  · rw [if_neg hdeg] at h
    push_neg at hdeg
    obtain ⟨hk, hne⟩ := hdeg
    set n := photos.length with hn
    set w := bspNumWorkers W n with hwdef
    set cs := bspChunkSize n w with hcsdef
    by_cases hpan : bspPanics photos cs w
    · rw [if_pos hpan] at h
      exact Option.noConfusion h
    · rw [if_neg hpan] at h
      have hres : res = drainSorted
          ((bspLocalHeaps score k photos cs w).flatten.foldl (offer k) []) := by
        injection h with h1
        exact (congrArg Prod.fst h1).symm
      subst hres
      -- arithmetic groundwork
      have hn1 : 1 ≤ n := List.length_pos.mpr hne
      have hw1 : 1 ≤ w := by
        rw [hwdef]
        unfold bspNumWorkers
        by_cases hW : W ≤ 0
        · rw [if_pos hW]; omega
        · rw [if_neg hW]
          have : 1 ≤ W.toNat := by omega
          omega
      have hcov : ∀ i < w, i * cs ≤ n := by
        intro i hi
        by_contra hlt
        apply hpan
        unfold bspPanics
        rw [List.any_eq_true]
        exact ⟨i, List.mem_range.mpr hi, by rw [decide_eq_true_eq]; omega⟩
      have hful : n ≤ w * cs := by
        have hdm := Nat.div_add_mod (n + w - 1) w
        have hmlt : (n + w - 1) % w < w := Nat.mod_lt _ (by omega)
        rw [hcsdef]
        unfold bspChunkSize
        omega
      have hflat : (bspChunks photos cs w).flatten = photos :=
        bspChunks_flatten photos cs w hcov hful
      -- the final reduction heap
      obtain ⟨fRej, hFsort, hFlen, hFperm, _, hFle⟩ :=
        offerFold_facts k (bspLocalHeaps score k photos cs w).flatten
      set finalHeap :=
        (bspLocalHeaps score k photos cs w).flatten.foldl (offer k) []
        with hfinal
      -- every element of a local heap, hence of the final heap, is the
      -- scored pair of a candidate
      have hmemFl : ∀ q ∈ (bspLocalHeaps score k photos cs w).flatten,
          q = scoredOf score q.photo ∧ q.photo ∈ photos := by
        intro q hq
        obtain ⟨L, hL, hqL⟩ := List.mem_flatten.mp hq
        obtain ⟨c, hc, hcL⟩ := List.mem_map.mp hL
        obtain ⟨rejc, _, _, hcperm, _, _⟩ :=
          offerFold_facts k (c.map (scoredOf score))
        have hqc : q ∈ c.map (scoredOf score) :=
          (hcperm.mem_iff).mp (List.mem_append_left rejc (hcL ▸ hqL))
        obtain ⟨p, hpc, rfl⟩ := List.mem_map.mp hqc
        refine ⟨rfl, ?_⟩
        rw [← hflat]
        exact List.mem_flatten.mpr ⟨c, hc, hpc⟩
      have hmemF : ∀ q ∈ finalHeap,
          q = scoredOf score q.photo ∧ q.photo ∈ photos := fun q hq =>
        hmemFl q ((hFperm.mem_iff).mp (List.mem_append_left fRej hq))
      refine ⟨⟨?_, ?_, ?_⟩, ?_⟩
      · -- length
        show (drainSorted finalHeap).length = _
        unfold drainSorted
        rw [List.length_map, List.length_reverse, hfinal, hFlen]
        have hmap : (bspLocalHeaps score k photos cs w).map List.length =
            (bspChunks photos cs w).map (fun c => min k.toNat c.length) := by
          unfold bspLocalHeaps
          rw [List.map_map]
          apply List.map_congr_left
          intro c _
          show ((c.map (scoredOf score)).foldl (offer k) []).length = _
          rw [foldl_offer_length k _ [] (by simp)]
          simp
        rw [List.length_flatten, hmap]
        have := min_sum_min k.toNat ((bspChunks photos cs w).map List.length)
        rw [List.map_map] at this
        have hsums : ((bspChunks photos cs w).map List.length).sum = n := by
          rw [← List.length_flatten, hflat]
        rw [show ((bspChunks photos cs w).map
            ((fun b => min k.toNat b) ∘ List.length)) =
            ((bspChunks photos cs w).map (fun c => min k.toNat c.length))
          from rfl] at this
        rw [this, hsums]
      · -- results are candidates
        intro r hr
        obtain ⟨q, hq, rfl⟩ := mem_drainSorted.mp hr
        exact (hmemF q hq).2
      · -- excluded candidates are no more preferred
        intro p hp hpres r hr
        obtain ⟨q, hqF, rfl⟩ := mem_drainSorted.mp hr
        obtain ⟨hqshape, _⟩ := hmemF q hqF
        rw [← hqshape]
        obtain ⟨c, hc, hpc⟩ := List.mem_flatten.mp (hflat ▸ hp)
        obtain ⟨rejc, hcsort, hclen, hcperm, hcfull, hcle⟩ :=
          offerFold_facts k (c.map (scoredOf score))
        set L := (c.map (scoredOf score)).foldl (offer k) [] with hLdef
        have hLmem : L ∈ bspLocalHeaps score k photos cs w := by
          unfold bspLocalHeaps
          exact List.mem_map_of_mem _ hc
        have hsp : scoredOf score p ∈ L ++ rejc :=
          (hcperm.mem_iff).mpr (List.mem_map_of_mem (scoredOf score) hpc)
        rcases List.mem_append.mp hsp with hpL | hpR
        · -- p survived its local heap, so the final stage decides it
          have hpfl : scoredOf score p ∈
              (bspLocalHeaps score k photos cs w).flatten :=
            List.mem_flatten.mpr ⟨L, hLmem, hpL⟩
          have : scoredOf score p ∈ finalHeap ++ fRej :=
            (hFperm.mem_iff).mpr hpfl
          rcases List.mem_append.mp this with hF | hR
          · exact absurd (mem_drainSorted.mpr ⟨scoredOf score p, hF, rfl⟩) hpres
          · exact hFle (scoredOf score p) hR q hqF
        · -- p was rejected locally: its local heap holds k entries all
          -- at least as preferred, and they crowd q out unless q is
          -- no less preferred than p
          by_contra hnle
          have hqp : spLess q (scoredOf score p) := by
            rw [spLE] at hnle
            exact not_not.mp hnle
          have hqltL : ∀ x ∈ L, spLess q x := by
            intro x hx
            rw [spLess_iff_key] at hqp ⊢
            exact lt_of_lt_of_le hqp
              (spLE_iff_key.mp (hcle (scoredOf score p) hpR x hx))
          have hrcne : rejc ≠ [] := List.ne_nil_of_mem hpR
          have hLlen : L.length = k.toNat := by
            have h1 := hcfull hrcne
            have h2 : L.length = min k.toNat (c.map (scoredOf score)).length := hclen
            rw [List.length_map] at h2
            omega
          have hqnotL : q ∉ L := by
            intro hqL
            exact lt_irrefl (spKey q) (spLess_iff_key.mp (hqltL q hqL))
          have hsum : (finalHeap : Multiset (ScoredPhoto V)) + (fRej : Multiset (ScoredPhoto V)) =
              ((bspLocalHeaps score k photos cs w).flatten : Multiset (ScoredPhoto V)) := by
            simpa using Multiset.coe_eq_coe.mpr hFperm
          have hLle : (L : Multiset (ScoredPhoto V)) ≤
              ((bspLocalHeaps score k photos cs w).flatten : Multiset (ScoredPhoto V)) :=
            Multiset.coe_le.mpr (List.sublist_flatten_of_mem hLmem).subperm
          have hkey : (L : Multiset (ScoredPhoto V)) + {q} ≤
              (finalHeap : Multiset (ScoredPhoto V)) := by
            rw [Multiset.le_iff_count]
            intro y
            rw [Multiset.count_add]
            by_cases hyq : y = q
            · subst hyq
              have hc0 : Multiset.count y (L : Multiset (ScoredPhoto V)) = 0 :=
                Multiset.count_eq_zero.mpr (by rwa [Multiset.mem_coe])
              have hc1 : 1 ≤ Multiset.count y (finalHeap : Multiset (ScoredPhoto V)) :=
                Multiset.one_le_count_iff_mem.mpr (Multiset.mem_coe.mpr hqF)
              rw [hc0, Multiset.count_singleton, if_pos rfl]
              omega
            · rw [Multiset.count_singleton, if_neg hyq]
              by_cases hyL : y ∈ L
              · have hynR : y ∉ fRej := by
                  intro hyR
                  have h1 := hFle y hyR q hqF
                  have h2 := hqltL y hyL
                  rw [spLE_iff_key] at h1
                  rw [spLess_iff_key] at h2
                  exact absurd h1 (not_le.mpr h2)
                have hR0 : Multiset.count y (fRej : Multiset (ScoredPhoto V)) = 0 :=
                  Multiset.count_eq_zero.mpr (by rwa [Multiset.mem_coe])
                have heq := congrArg (Multiset.count y) hsum
                rw [Multiset.count_add, hR0] at heq
                have hle' := Multiset.count_le_of_le y hLle
                omega
              · have : Multiset.count y (L : Multiset (ScoredPhoto V)) = 0 :=
                  Multiset.count_eq_zero.mpr (by rwa [Multiset.mem_coe])
                omega
          have hcard := Multiset.card_le_card hkey
          rw [Multiset.card_add, Multiset.coe_card, Multiset.coe_card,
            Multiset.card_singleton, hLlen] at hcard
          have hFbound : finalHeap.length ≤ k.toNat := by
            rw [hfinal, hFlen]
            omega
          omega
      · -- output ordering
        show (drainSorted finalHeap).Pairwise (outLE score)
        unfold drainSorted
        rw [List.pairwise_map]
        have hrev : finalHeap.reverse.Pairwise (fun a b => spLE b a) :=
          List.pairwise_reverse.mpr hFsort
        refine List.Pairwise.imp_of_mem ?_ hrev
        intro a b ha hb hba
        have haH := hmemF a (List.mem_reverse.mp ha)
        have hbH := hmemF b (List.mem_reverse.mp hb)
        show spLE (scoredOf score b.photo) (scoredOf score a.photo)
        rw [← haH.1, ← hbH.1]
        exact hba

/-! ## Pipeline and work-stealing collector facts -/

/-- The pipeline result is a top-K selection of the candidates for every
arrival order that delivers each candidate exactly once, and it is
sorted in the output order for every arrival order whatsoever. -/
theorem RankScoringPipeline_facts (score : PhotoMetadata → V)
    (photos arrival : List PhotoMetadata) (k S : Int) :
    (List.Perm arrival photos →
      IsTopK score k photos (RankScoringPipeline score photos k S arrival)) ∧
    (RankScoringPipeline score photos k S arrival).Pairwise (outLE score) := by
  unfold RankScoringPipeline
  by_cases hdeg : k ≤ 0 ∨ photos = []
  · rw [if_pos hdeg]
    exact ⟨fun _ => IsTopK_nil score hdeg, List.Pairwise.nil⟩
  · rw [if_neg hdeg]
    unfold collectResults
    have hk : ¬ k ≤ 0 := fun hkk => hdeg (Or.inl hkk)
    rw [if_neg hk]
    have hmaster := topKFold_master score k arrival
    exact ⟨fun hperm => IsTopK_of_perm score k hperm hmaster.1, hmaster.2⟩

/-- The work-stealing result is a top-K selection of the candidates for
every push order that scores each task exactly once, is sorted in the
output order for every push order, and reports a zero (idealized)
duration. -/
theorem RankWS_facts (score : PhotoMetadata → V)
    (photos arrival : List PhotoMetadata) (k W : Int) :
    (List.Perm arrival photos →
      IsTopK score k photos (RankWS score photos k W arrival).1) ∧
    ((RankWS score photos k W arrival).1).Pairwise (outLE score) ∧
    (RankWS score photos k W arrival).2 = 0 := by
  unfold RankWS
  by_cases hdeg : k ≤ 0 ∨ photos = []
  · rw [if_pos hdeg]
    exact ⟨fun _ => IsTopK_nil score hdeg, List.Pairwise.nil, rfl⟩
  · rw [if_neg hdeg]
    have hmaster := topKFold_master score k arrival
    exact ⟨fun hperm => IsTopK_of_perm score k hperm hmaster.1, hmaster.2, rfl⟩

/-- The component-wise claim ordering: `b` may follow `a` iff its score
is no higher, with downloads (descending) and id (ascending) breaking
ties. -/
theorem outLE_iff (score : PhotoMetadata → V) (a b : PhotoMetadata) :
    outLE score a b ↔
      (score b < score a ∨ (score b = score a ∧
        (b.statsDownloads < a.statsDownloads ∨
          (b.statsDownloads = a.statsDownloads ∧ a.photoID ≤ b.photoID)))) := by
  unfold outLE
  rw [spLE_iff_key]
  unfold spKey scoredOf
  rw [Prod.Lex.le_iff]
  constructor
  · rintro (h | ⟨heq, hrest⟩)
    · exact Or.inl h
    · refine Or.inr ⟨heq, ?_⟩
      rw [Prod.Lex.le_iff] at hrest
      rcases hrest with h | ⟨heq2, h⟩
      · exact Or.inl h
      · exact Or.inr ⟨heq2, OrderDual.toDual_le_toDual.mp h⟩
  · rintro (h | ⟨heq, hrest⟩)
    · exact Or.inl h
    · refine Or.inr ⟨heq, ?_⟩
      rw [Prod.Lex.le_iff]
      rcases hrest with h | ⟨heq2, h⟩
      · exact Or.inl h
      · exact Or.inr ⟨heq2, OrderDual.toDual_le_toDual.mpr h⟩

/-- The ordering the spec states for ranker outputs: a photo may follow
another only with lower score, or equal score and fewer downloads, or
equal both and a lexicographically larger (or equal) id. -/
def rankedOrder (score : PhotoMetadata → V) (a b : PhotoMetadata) : Prop :=
  score b < score a ∨ (score b = score a ∧
    (b.statsDownloads < a.statsDownloads ∨
      (b.statsDownloads = a.statsDownloads ∧ a.photoID ≤ b.photoID)))

theorem outLE_iff_rankedOrder (score : PhotoMetadata → V)
    (a b : PhotoMetadata) : outLE score a b ↔ rankedOrder score a b := by
  unfold rankedOrder
  exact outLE_iff score a b

/-! ## Concrete inputs for witnesses and counterexamples -/

/-- A photo record with only the ranking-relevant fields populated. -/
def mkPhoto (id desc : String) (dls : Int) : PhotoMetadata :=
  { photoID := id, photoDescription := desc, aiDescription := "",
    photoLocationCountry := "", photoLocationCity := "",
    statsDownloads := dls }

/-- Five candidates, the smallest list on which the BSP chunking panics
with four workers (`chunkSize = 2`, worker 3 slices `photos[6:5]`). -/
def fivePhotos : List PhotoMetadata :=
  [mkPhoto "A" "foo bar" 1, mkPhoto "B" "foo" 10, mkPhoto "C" "baz" 100,
   mkPhoto "D" "foo only" 5, mkPhoto "E" "nothing" 20]

/-- A simple concrete scoring function for witnesses. -/
def dlScore (p : PhotoMetadata) : Int := p.statsDownloads

/-! ## Claims about the rankers -/

/-- Claim C1: the claim that all rankers agree with the sequential
ranker on every input fails because of a chunking bug: on five
candidates with four workers, `RankBSP` computes `chunkSize = 2` and
slices `photos[6:5]` for the last worker, a slice-bounds panic
(modelled as `none`), while the sequential `Rank` returns its full
five-element ranking; this holds for every scoring function. -/
theorem C1_bsp_chunking_panics (score : PhotoMetadata → V) :
    RankBSP score fivePhotos 5 4 = none ∧
    (Rank score fivePhotos 5).length = 5 := by
  constructor
  · rfl
  · rw [(Rank_facts score fivePhotos 5).1.1]
    decide

/-- Claim C3: for positive `k`, each ranker's result is a top-K
selection of the candidates: it has `min(k, n)` entries drawn from the
candidates, and every excluded candidate has rank order no greater than
any included one (`RankBSP` conditional on its returning at all; the
pipeline and work-stealing rankers for every exactly-once delivery
order). -/
theorem C3_topk_selection (score : PhotoMetadata → V)
    (photos arrivalP arrivalW : List PhotoMetadata) (k S W : Int)
    (_hk : 0 < k) (hP : List.Perm arrivalP photos)
    (hW : List.Perm arrivalW photos) :
    IsTopK score k photos (Rank score photos k) ∧
    IsTopK score k photos (RankScoringPipeline score photos k S arrivalP) ∧
    IsTopK score k photos (RankWS score photos k W arrivalW).1 ∧
    ∀ res d, RankBSP score photos k W = some (res, d) →
      IsTopK score k photos res :=
  ⟨(Rank_facts score photos k).1,
   (RankScoringPipeline_facts score photos arrivalP k S).1 hP,
   (RankWS_facts score photos arrivalW k W).1 hW,
   fun _ _ h => (RankBSP_facts score h).1⟩

/-- Witness for C3 on five concrete photos with `k = 3`, identity
arrival orders and the download-count scorer. -/
theorem C3_topk_selection_witness :
    (0 < (3 : Int)) ∧ List.Perm fivePhotos fivePhotos ∧
    (IsTopK dlScore 3 fivePhotos (Rank dlScore fivePhotos 3) ∧
     IsTopK dlScore 3 fivePhotos
       (RankScoringPipeline dlScore fivePhotos 3 2 fivePhotos) ∧
     IsTopK dlScore 3 fivePhotos (RankWS dlScore fivePhotos 3 2 fivePhotos).1 ∧
     ∀ res d, RankBSP dlScore fivePhotos 3 2 = some (res, d) →
       IsTopK dlScore 3 fivePhotos res) :=
  ⟨by decide, List.Perm.refl fivePhotos,
   C3_topk_selection dlScore fivePhotos fivePhotos fivePhotos 3 2 2 (by decide)
     (List.Perm.refl fivePhotos) (List.Perm.refl fivePhotos)⟩

/-- Claim C4: every ranker's output is sorted: non-increasing in score,
non-increasing in downloads within equal scores, and non-decreasing in
photo id within further ties (`RankBSP` conditional on returning; the
pipeline and work-stealing outputs for every arrival order). -/
theorem C4_output_ordering (score : PhotoMetadata → V)
    (photos arrivalP arrivalW : List PhotoMetadata) (k S W : Int) :
    (Rank score photos k).Pairwise (rankedOrder score) ∧
    (RankScoringPipeline score photos k S arrivalP).Pairwise (rankedOrder score) ∧
    ((RankWS score photos k W arrivalW).1).Pairwise (rankedOrder score) ∧
    ∀ res d, RankBSP score photos k W = some (res, d) →
      res.Pairwise (rankedOrder score) := by
  have himp : ∀ {a b : PhotoMetadata}, outLE score a b → rankedOrder score a b :=
    fun {a b} h => (outLE_iff_rankedOrder score a b).mp h
  exact ⟨((Rank_facts score photos k).2).imp himp,
    ((RankScoringPipeline_facts score photos arrivalP k S).2).imp himp,
    ((RankWS_facts score photos arrivalW k W).2.1).imp himp,
    fun _ _ h => ((RankBSP_facts score h).2).imp himp⟩

/-- Witness for C4: the ordering conclusion at the concrete input, with
a non-degenerate `RankBSP` run exhibited for the conditional clause. -/
theorem C4_output_ordering_witness :
    ((Rank dlScore fivePhotos 3).Pairwise (rankedOrder dlScore) ∧
     (RankScoringPipeline dlScore fivePhotos 3 2 fivePhotos).Pairwise
       (rankedOrder dlScore) ∧
     ((RankWS dlScore fivePhotos 3 2 fivePhotos).1).Pairwise
       (rankedOrder dlScore) ∧
     ∀ res d, RankBSP dlScore fivePhotos 3 2 = some (res, d) →
       res.Pairwise (rankedOrder dlScore)) ∧
    (RankBSP dlScore fivePhotos 3 2 ≠ none) :=
  ⟨C4_output_ordering dlScore fivePhotos fivePhotos fivePhotos 3 2 2,
   by decide⟩

/-- Claim C5: the claim that every ranker always returns `min(k, n)`
results fails for `RankBSP`, which panics on five candidates with four
workers; the sequential, pipeline and work-stealing rankers do return
exactly `min(k, n)` results, and so does `RankBSP` whenever it returns
at all. -/
theorem C5_result_length (score : PhotoMetadata → V)
    (photos arrivalP arrivalW : List PhotoMetadata) (k S W : Int)
    (_hk : 0 < k) (hP : List.Perm arrivalP photos)
    (hW : List.Perm arrivalW photos) :
    (Rank score photos k).length = min k.toNat photos.length ∧
    (RankScoringPipeline score photos k S arrivalP).length =
      min k.toNat photos.length ∧
    ((RankWS score photos k W arrivalW).1).length = min k.toNat photos.length ∧
    (∀ res d, RankBSP score photos k W = some (res, d) →
      res.length = min k.toNat photos.length) ∧
    RankBSP dlScore fivePhotos 3 4 = none :=
  ⟨((Rank_facts score photos k).1).1,
   ((RankScoringPipeline_facts score photos arrivalP k S).1 hP).1,
   ((RankWS_facts score photos arrivalW k W).1 hW).1,
   fun _ _ h => ((RankBSP_facts score h).1).1,
   rfl⟩

/-- Witness for C5 at the concrete five-photo input with `k = 3`. -/
theorem C5_result_length_witness :
    (0 < (3 : Int)) ∧ List.Perm fivePhotos fivePhotos ∧
    ((Rank dlScore fivePhotos 3).length = min (3 : Int).toNat fivePhotos.length ∧
     (RankScoringPipeline dlScore fivePhotos 3 2 fivePhotos).length =
       min (3 : Int).toNat fivePhotos.length ∧
     ((RankWS dlScore fivePhotos 3 2 fivePhotos).1).length =
       min (3 : Int).toNat fivePhotos.length ∧
     (∀ res d, RankBSP dlScore fivePhotos 3 2 = some (res, d) →
       res.length = min (3 : Int).toNat fivePhotos.length) ∧
     RankBSP dlScore fivePhotos 3 4 = none) :=
  ⟨by decide, List.Perm.refl fivePhotos,
   C5_result_length dlScore fivePhotos fivePhotos fivePhotos 3 2 2 (by decide)
     (List.Perm.refl fivePhotos) (List.Perm.refl fivePhotos)⟩

/-- Claim C7: on degenerate inputs (`k ≤ 0` or no candidates), every
ranker returns an empty result without signalling an error, and the
rankers that report a duration (`RankBSP`, `RankWS`) report the
idealized zero duration. -/
theorem C7_degenerate_inputs (score : PhotoMetadata → V)
    (photos arrivalP arrivalW : List PhotoMetadata) (k S W : Int)
    (h : k ≤ 0 ∨ photos = []) :
    Rank score photos k = [] ∧
    RankScoringPipeline score photos k S arrivalP = [] ∧
    RankWS score photos k W arrivalW = ([], 0) ∧
    RankBSP score photos k W = some ([], 0) := by
  unfold Rank RankScoringPipeline RankWS RankBSP
  rw [if_pos h, if_pos h, if_pos h, if_pos h]
  exact ⟨rfl, rfl, rfl, rfl⟩

/-- Witness for C7 at `k = 0` on a nonempty candidate list. -/
theorem C7_degenerate_inputs_witness :
    ((0 : Int) ≤ 0 ∨ fivePhotos = []) ∧
    (Rank dlScore fivePhotos 0 = [] ∧
     RankScoringPipeline dlScore fivePhotos 0 2 fivePhotos = [] ∧
     RankWS dlScore fivePhotos 0 2 fivePhotos = ([], 0) ∧
     RankBSP dlScore fivePhotos 0 2 = some ([], 0)) :=
  ⟨Or.inl (by decide),
   C7_degenerate_inputs dlScore fivePhotos fivePhotos fivePhotos 0 2 2
     (Or.inl (by decide))⟩

/-! ## The work-stealing runtime

`RankWS`'s task system, modelled as a transition system: the mutex-
protected deques serialize their operations, so an execution is a
sequence of atomic pops — `PopBottom` by an owner or `PopTop` by a
stealer — each of which scores its task (appending it to the processed
log) and decrements the outstanding-task counter (`tasksWg`).  Spinning
and quit-signal checks do not change this state and are elided. -/

/-- `ws.Task`: a unit of work, a photo to score against a query. -/
structure Task where
  photo : PhotoMetadata
  query : String
deriving DecidableEq, Repr

/-- The task for one photo. -/
def mkTask (query : String) (p : PhotoMetadata) : Task :=
  { photo := p, query := query }

/-- The state of the work-stealing runtime: the per-worker deques
(bottom of a deque is the list's tail end) and the log of tasks scored
so far. -/
structure WSState where
  deques : List (List Task)
  processed : List Task
deriving DecidableEq, Repr

/-- The outstanding-task counter: the number of tasks still queued. -/
def outstanding (s : WSState) : Nat := (s.deques.map List.length).sum

/-- All tasks of a state, queued or already scored. -/
def taskBag (s : WSState) : Multiset Task :=
  Multiset.ofList s.processed + ((s.deques.map Multiset.ofList).sum)

/-- The round-robin distribution loop: task `i` is pushed to the bottom
of deque `i % w`. -/
def wsDistribute (query : String) (photos : List PhotoMetadata) (w : Nat) :
    List (List Task) :=
  photos.enum.foldl (fun ds ip =>
    ds.set (ip.1 % w) (ds.getD (ip.1 % w) [] ++ [mkTask query ip.2]))
    (List.replicate w [])

/-- The initial state: distributed deques, nothing processed. -/
def wsInit (query : String) (photos : List PhotoMetadata) (w : Nat) : WSState :=
  { deques := wsDistribute query photos w, processed := [] }

/-- `Deque.PopBottom` by owner `i`, scoring the removed task. -/
def ownerPop (s : WSState) (i : Nat) : WSState :=
  { deques := s.deques.set i ((s.deques.getD i []).dropLast),
    processed := s.processed ++ ((s.deques.getD i []).getLast?).toList }

/-- `Deque.PopTop` by a stealer from deque `i`, scoring the stolen
task. -/
def stealPop (s : WSState) (i : Nat) : WSState :=
  { deques := s.deques.set i ((s.deques.getD i []).tail),
    processed := s.processed ++ ((s.deques.getD i []).head?).toList }

/-- One atomic productive step of the runtime: some worker succeeds in a
`PopBottom` on its own deque or a `PopTop` steal from another, and
scores the task. -/
def wsStep (s s' : WSState) : Prop :=
  ∃ i, i < s.deques.length ∧ s.deques.getD i [] ≠ [] ∧
    (s' = ownerPop s i ∨ s' = stealPop s i)

/-- Replacing one entry changes an additive fold over the deques by
exactly the difference of the entry images. -/
theorem sum_map_set {M : Type} [AddCommMonoid M] (f : List Task → M) :
    ∀ (L : List (List Task)) (i : Nat) (x : List Task), i < L.length →
      ((L.set i x).map f).sum + f (L.getD i []) = (L.map f).sum + f x := by
  intro L
  induction L with
  | nil => intro i x hi; cases hi
  | cons d L ih =>
    intro i x hi
    cases i with
    | zero =>
      show ((x :: L).map f).sum + f d = ((d :: L).map f).sum + f x
      simp only [List.map_cons, List.sum_cons]
      abel
    | succ i =>
      have hi' : i < L.length := Nat.lt_of_succ_lt_succ hi
      show ((d :: L.set i x).map f).sum + f (L.getD i []) =
        ((d :: L).map f).sum + f x
      simp only [List.map_cons, List.sum_cons]
      rw [add_assoc, ih i x hi', add_assoc]

/-- Each productive step decrements the outstanding counter by exactly
one. -/
theorem wsStep_outstanding {s s' : WSState} (h : wsStep s s') :
    outstanding s = outstanding s' + 1 := by
  obtain ⟨i, hi, hne, hcase⟩ := h
  have hpos : 0 < (s.deques.getD i []).length := List.length_pos.mpr hne
  rcases hcase with rfl | rfl
  · have hs := sum_map_set List.length s.deques i
      ((s.deques.getD i []).dropLast) hi
    show (s.deques.map List.length).sum =
      (((s.deques.set i ((s.deques.getD i []).dropLast)).map List.length).sum) + 1
    rw [List.length_dropLast] at hs
    omega
  · have hs := sum_map_set List.length s.deques i ((s.deques.getD i []).tail) hi
    show (s.deques.map List.length).sum =
      (((s.deques.set i ((s.deques.getD i []).tail)).map List.length).sum) + 1
    rw [List.length_tail] at hs
    omega

/-- Each productive step scores exactly one task. -/
theorem wsStep_processed {s s' : WSState} (h : wsStep s s') :
    s'.processed.length = s.processed.length + 1 := by
  obtain ⟨i, hi, hne, hcase⟩ := h
  rcases hcase with rfl | rfl
  · show (s.processed ++ ((s.deques.getD i []).getLast?).toList).length = _
    rw [List.getLast?_eq_getLast _ hne]
    simp
  · show (s.processed ++ ((s.deques.getD i []).head?).toList).length = _
    rw [List.head?_eq_head hne]
    simp

/-- Each productive step moves its task from a deque to the processed
log: the overall task multiset is preserved, so no task is ever scored
twice (an owner pop and a steal never both return the same task). -/
theorem wsStep_taskBag {s s' : WSState} (h : wsStep s s') :
    taskBag s' = taskBag s := by
  obtain ⟨i, hi, hne, hcase⟩ := h
  rcases hcase with rfl | rfl
  · -- owner pop from the bottom (the last element)
    have hs := sum_map_set Multiset.ofList
      s.deques i ((s.deques.getD i []).dropLast) hi
    have hsplit : Multiset.ofList (s.deques.getD i []) =
        Multiset.ofList ((s.deques.getD i []).dropLast) +
          {(s.deques.getD i []).getLast hne} := by
      conv_lhs => rw [← List.dropLast_append_getLast hne]
      rfl
    have hcancel : (((s.deques.set i ((s.deques.getD i []).dropLast)).map
          Multiset.ofList).sum) + {(s.deques.getD i []).getLast hne} =
        ((s.deques.map Multiset.ofList).sum) := by
      rw [hsplit, ← add_assoc, add_right_comm] at hs
      exact add_right_cancel hs
    show Multiset.ofList (s.processed ++ ((s.deques.getD i []).getLast?).toList) +
        (((s.deques.set i ((s.deques.getD i []).dropLast)).map
          Multiset.ofList).sum) =
      Multiset.ofList s.processed + ((s.deques.map Multiset.ofList).sum)
    rw [List.getLast?_eq_getLast _ hne]
    show (Multiset.ofList s.processed +
        {(s.deques.getD i []).getLast hne}) +
        (((s.deques.set i ((s.deques.getD i []).dropLast)).map
          Multiset.ofList).sum) = _
    rw [add_assoc,
      add_comm ({(s.deques.getD i []).getLast hne} : Multiset Task) _, hcancel]
  · -- steal from the top (the head element)
    have hs := sum_map_set Multiset.ofList
      s.deques i ((s.deques.getD i []).tail) hi
    have hsplit : Multiset.ofList (s.deques.getD i []) =
        Multiset.ofList ((s.deques.getD i []).tail) +
          {(s.deques.getD i []).head hne} := by
      conv_lhs => rw [← List.head_cons_tail _ hne]
      show ((s.deques.getD i []).head hne) ::ₘ
          Multiset.ofList ((s.deques.getD i []).tail) = _
      rw [add_comm, ← Multiset.singleton_add]
    have hcancel : (((s.deques.set i ((s.deques.getD i []).tail)).map
          Multiset.ofList).sum) + {(s.deques.getD i []).head hne} =
        ((s.deques.map Multiset.ofList).sum) := by
      rw [hsplit, ← add_assoc, add_right_comm] at hs
      exact add_right_cancel hs
    show Multiset.ofList (s.processed ++ ((s.deques.getD i []).head?).toList) +
        (((s.deques.set i ((s.deques.getD i []).tail)).map
          Multiset.ofList).sum) =
      Multiset.ofList s.processed + ((s.deques.map Multiset.ofList).sum)
    rw [List.head?_eq_head hne]
    show (Multiset.ofList s.processed +
        {(s.deques.getD i []).head hne}) +
        (((s.deques.set i ((s.deques.getD i []).tail)).map
          Multiset.ofList).sum) = _
    rw [add_assoc,
      add_comm ({(s.deques.getD i []).head hne} : Multiset Task) _, hcancel]

/-- While tasks are outstanding some deque is nonempty, so some worker
can take a productive step (the spin/yield loop cannot be the only
option). -/
theorem wsStep_progress {s : WSState} (h : 0 < outstanding s) :
    ∃ s', wsStep s s' := by
  have hex : ∃ i, i < s.deques.length ∧ s.deques.getD i [] ≠ [] := by
    by_contra hall
    push_neg at hall
    have hzero : ∀ x ∈ s.deques.map List.length, x = 0 := by
      intro x hx
      rcases List.mem_map.mp hx with ⟨d, hd, rfl⟩
      rcases List.mem_iff_getElem.mp hd with ⟨i, hi, rfl⟩
      rw [show s.deques[i] = s.deques.getD i [] from
        (List.getD_eq_getElem s.deques [] hi).symm]
      rw [hall i hi]
      rfl
    have : outstanding s = 0 := List.sum_eq_zero hzero
    omega
  obtain ⟨i, hi, hne⟩ := hex
  exact ⟨ownerPop s i, i, hi, hne, Or.inl rfl⟩

/-- Once the outstanding counter is zero there is no productive step
left: this is the exit condition of every worker. -/
theorem wsStep_halt {s : WSState} (h : outstanding s = 0) (s' : WSState) :
    ¬ wsStep s s' := by
  rintro ⟨i, hi, hne, -⟩
  apply hne
  have hmem : (s.deques.getD i []).length ∈ s.deques.map List.length := by
    rw [List.getD_eq_getElem s.deques [] hi]
    exact List.mem_map_of_mem List.length (List.getElem_mem hi)
  have hz : (s.deques.map List.length).sum = 0 := h
  have := List.sum_eq_zero_iff.mp hz _ hmem
  exact List.eq_nil_of_length_eq_zero this

/-- The round-robin distribution loop, from any deque array of width
`w`: it preserves the width, enqueues one task per candidate, and
enqueues exactly the tasks of the distributed list. -/
theorem wsDistribute_facts (query : String) (w : Nat) (hw : 0 < w) :
    ∀ (l : List (Nat × PhotoMetadata)) (ds : List (List Task)),
      ds.length = w →
      (l.foldl (fun ds ip =>
          ds.set (ip.1 % w) (ds.getD (ip.1 % w) [] ++ [mkTask query ip.2])) ds).length = w ∧
      ((l.foldl (fun ds ip =>
          ds.set (ip.1 % w) (ds.getD (ip.1 % w) [] ++ [mkTask query ip.2])) ds).map
        List.length).sum = ((ds.map List.length).sum) + l.length ∧
      ((l.foldl (fun ds ip =>
          ds.set (ip.1 % w) (ds.getD (ip.1 % w) [] ++ [mkTask query ip.2])) ds).map
        Multiset.ofList).sum = ((ds.map Multiset.ofList).sum) +
          Multiset.ofList (l.map (fun ip => mkTask query ip.2)) := by
  intro l
  induction l with
  | nil =>
    intro ds hds
    refine ⟨hds, by simp, by simp⟩
  | cons ip l ih =>
    intro ds hds
    have hj : ip.1 % w < ds.length := by rw [hds]; exact Nat.mod_lt _ hw
    obtain ⟨ha, hb, hc⟩ := ih
      (ds.set (ip.1 % w) (ds.getD (ip.1 % w) [] ++ [mkTask query ip.2]))
      (by rw [List.length_set, hds])
    have hlen : (((ds.set (ip.1 % w)
          (ds.getD (ip.1 % w) [] ++ [mkTask query ip.2])).map List.length).sum) =
        ((ds.map List.length).sum) + 1 := by
      have hs := sum_map_set List.length ds (ip.1 % w)
        (ds.getD (ip.1 % w) [] ++ [mkTask query ip.2]) hj
      rw [List.length_append, List.length_singleton] at hs
      omega
    have hbag : (((ds.set (ip.1 % w)
          (ds.getD (ip.1 % w) [] ++ [mkTask query ip.2])).map Multiset.ofList).sum) =
        ((ds.map Multiset.ofList).sum) + {mkTask query ip.2} := by
      have hs := sum_map_set Multiset.ofList ds (ip.1 % w)
        (ds.getD (ip.1 % w) [] ++ [mkTask query ip.2]) hj
      have happ : Multiset.ofList (ds.getD (ip.1 % w) [] ++ [mkTask query ip.2]) =
          Multiset.ofList (ds.getD (ip.1 % w) []) + {mkTask query ip.2} := rfl
      rw [happ] at hs
      have hs2 : (((ds.set (ip.1 % w)
            (ds.getD (ip.1 % w) [] ++ [mkTask query ip.2])).map Multiset.ofList).sum) +
            Multiset.ofList (ds.getD (ip.1 % w) []) =
          (((ds.map Multiset.ofList).sum) + {mkTask query ip.2}) +
            Multiset.ofList (ds.getD (ip.1 % w) []) := by
        rw [hs]
        abel
      exact add_right_cancel hs2
    simp only [List.foldl_cons, List.length_cons, List.map_cons]
    refine ⟨ha, ?_, ?_⟩
    · rw [hb, hlen]
      omega
    · rw [hc, hbag]
      have hcons : Multiset.ofList
            (mkTask query ip.2 :: l.map (fun ip => mkTask query ip.2)) =
          ({mkTask query ip.2} : Multiset Task) +
            Multiset.ofList (l.map (fun ip => mkTask query ip.2)) := by
        rw [Multiset.singleton_add]
        rfl
      rw [hcons]
      abel

/-- The initial outstanding counter is the number of candidates. -/
theorem wsInit_outstanding (query : String) (photos : List PhotoMetadata)
    (w : Nat) (hw : 0 < w) :
    outstanding (wsInit query photos w) = photos.length := by
  obtain ⟨-, hb, -⟩ := wsDistribute_facts query w hw photos.enum
    (List.replicate w []) (by simp)
  show ((wsDistribute query photos w).map List.length).sum = photos.length
  unfold wsDistribute
  rw [hb]
  simp [List.map_replicate]

/-- The initial task bag holds exactly one task per candidate. -/
theorem wsInit_taskBag (query : String) (photos : List PhotoMetadata)
    (w : Nat) (hw : 0 < w) :
    taskBag (wsInit query photos w) =
      Multiset.ofList (photos.map (mkTask query)) := by
  obtain ⟨-, -, hc⟩ := wsDistribute_facts query w hw photos.enum
    (List.replicate w []) (by simp)
  show Multiset.ofList [] + ((wsDistribute query photos w).map Multiset.ofList).sum = _
  unfold wsDistribute
  rw [hc]
  have h0 : (((List.replicate w ([] : List Task)).map Multiset.ofList).sum) = 0 := by
    simp [List.map_replicate]
  rw [h0]
  have hmap : photos.enum.map (fun ip => mkTask query ip.2) =
      photos.map (mkTask query) := by
    rw [show (fun ip : Nat × PhotoMetadata => mkTask query ip.2) =
      (mkTask query) ∘ Prod.snd from rfl, ← List.map_map, List.enum_map_snd]
  rw [hmap]
  rfl

/-- Along any execution, `i` steps in, the outstanding counter has been
decremented exactly `i` times and exactly `i` tasks have been scored. -/
theorem chain_countdown (N : Nat) :
    ∀ (tr : List WSState) (s : WSState) (c : Nat),
      List.Chain' wsStep (s :: tr) → outstanding s + c = N →
      s.processed.length = c →
      ∀ i (hi : i < (s :: tr).length),
        outstanding ((s :: tr).get ⟨i, hi⟩) + (c + i) = N ∧
        ((s :: tr).get ⟨i, hi⟩).processed.length = c + i := by
  intro tr
  induction tr with
  | nil =>
    intro s c _ hout hproc i hi
    cases i with
    | zero => exact ⟨by simpa using hout, by simpa using hproc⟩
    | succ i => exact absurd hi (by simp)
  | cons s' tr ih =>
    intro s c hch hout hproc i hi
    have hstep : wsStep s s' := (List.chain'_cons.mp hch).1
    have hch' : List.Chain' wsStep (s' :: tr) := (List.chain'_cons.mp hch).2
    have hout' : outstanding s' + (c + 1) = N := by
      have := wsStep_outstanding hstep
      omega
    have hproc' : s'.processed.length = c + 1 := by
      rw [wsStep_processed hstep, hproc]
    cases i with
    | zero => exact ⟨by simpa using hout, by simpa using hproc⟩
    | succ i =>
      have hi' : i < (s' :: tr).length := by simpa using hi
      have hres := ih s' (c + 1) hch' hout' hproc' i hi'
      have hget : ((s :: s' :: tr).get ⟨i + 1, hi⟩) =
          ((s' :: tr).get ⟨i, hi'⟩) := rfl
      rw [hget]
      exact ⟨by have := hres.1; omega, by have := hres.2; omega⟩

/-- The task bag never changes along an execution. -/
theorem chain_taskBag :
    ∀ (tr : List WSState) (s : WSState), List.Chain' wsStep (s :: tr) →
      ∀ t ∈ s :: tr, taskBag t = taskBag s := by
  intro tr
  induction tr with
  | nil =>
    intro s _ t ht
    rw [List.mem_singleton.mp ht]
  | cons s' tr ih =>
    intro s hch t ht
    have hstep : wsStep s s' := (List.chain'_cons.mp hch).1
    have hch' : List.Chain' wsStep (s' :: tr) := (List.chain'_cons.mp hch).2
    rcases List.mem_cons.mp ht with rfl | ht'
    · rfl
    · rw [ih s' hch' t ht', wsStep_taskBag hstep]

/-- Claim C9: for every finite candidate list and positive worker
count, along every execution of the work-stealing runtime from the
round-robin initial state: the execution performs at most `N`
productive steps (termination), after `i` steps the outstanding counter
is exactly `N - i` and exactly `i` tasks are scored (so the counter is
decremented exactly `N` times and reaches zero exactly once), the bag of
queued-plus-scored tasks is always exactly the `N` initial tasks (each
task is consumed and scored exactly once; an owner pop and a steal never
both return the same task), a step is available whenever the counter is
positive, and no step is possible once it reaches zero, which is what
lets every worker exit. -/
theorem C9_ws_liveness (query : String) (photos : List PhotoMetadata)
    (w : Nat) (hw : 0 < w) (tr : List WSState)
    (htr : List.Chain' wsStep (wsInit query photos w :: tr)) :
    tr.length ≤ photos.length ∧
    (∀ i (hi : i < (wsInit query photos w :: tr).length),
      outstanding ((wsInit query photos w :: tr).get ⟨i, hi⟩) + i = photos.length ∧
      ((wsInit query photos w :: tr).get ⟨i, hi⟩).processed.length = i) ∧
    (∀ s ∈ wsInit query photos w :: tr,
      taskBag s = Multiset.ofList (photos.map (mkTask query))) ∧
    (∀ s : WSState, 0 < outstanding s → ∃ s', wsStep s s') ∧
    (∀ s : WSState, outstanding s = 0 → ∀ s', ¬ wsStep s s') := by
  have hcd := chain_countdown photos.length tr (wsInit query photos w) 0 htr
    (by rw [wsInit_outstanding query photos w hw]; omega)
    rfl
  refine ⟨?_, ?_, ?_, fun s h => wsStep_progress h, fun s h => wsStep_halt h⟩
  · have hlt : tr.length < (wsInit query photos w :: tr).length := by simp
    have := (hcd tr.length hlt).1
    omega
  · intro i hi
    have := hcd i hi
    exact ⟨by have := this.1; omega, by have := this.2; omega⟩
  · intro s hs
    rw [chain_taskBag tr (wsInit query photos w) htr s hs,
      wsInit_taskBag query photos w hw]

/-- A concrete work-stealing run: one candidate, one worker, and the
single productive step in which the owner pops and scores its task. -/
def wsExPhotos : List PhotoMetadata := [mkPhoto "A" "a" 1]

def wsExMid : WSState := ownerPop (wsInit "q" wsExPhotos 1) 0

/-- Witness for C9 at the concrete one-candidate, one-worker run. -/
theorem C9_ws_liveness_witness :
    (0 < 1) ∧
    List.Chain' wsStep (wsInit "q" wsExPhotos 1 :: [wsExMid]) ∧
    ([wsExMid].length ≤ wsExPhotos.length ∧
    (∀ i (hi : i < (wsInit "q" wsExPhotos 1 :: [wsExMid]).length),
      outstanding ((wsInit "q" wsExPhotos 1 :: [wsExMid]).get ⟨i, hi⟩) + i =
        wsExPhotos.length ∧
      ((wsInit "q" wsExPhotos 1 :: [wsExMid]).get ⟨i, hi⟩).processed.length = i) ∧
    (∀ s ∈ wsInit "q" wsExPhotos 1 :: [wsExMid],
      taskBag s = Multiset.ofList (wsExPhotos.map (mkTask "q"))) ∧
    (∀ s : WSState, 0 < outstanding s → ∃ s', wsStep s s') ∧
    (∀ s : WSState, outstanding s = 0 → ∀ s', ¬ wsStep s s')) := by
  have hch : List.Chain' wsStep (wsInit "q" wsExPhotos 1 :: [wsExMid]) := by
    refine List.chain'_cons.mpr ⟨?_, List.chain'_singleton _⟩
    exact ⟨0, by decide, by decide, Or.inl rfl⟩
  exact ⟨Nat.one_pos, hch,
    C9_ws_liveness "q" wsExPhotos 1 Nat.one_pos [wsExMid] hch⟩

end ImageFinder
